import Mathlib

/-!
Verification development for the simple package manager
(manifest `add`, version resolution, dependency-graph construction,
lock-file reconciliation, and the tarball installer).

JavaScript strings are modelled as lists of characters, byte buffers as
lists of naturals, and JavaScript objects (the dependency graph, the two
caches, the on-disk tarball cache) as insertion-ordered association lists.
Network access (`axios.get`) and cryptographic hashing (`crypto.createHash`)
are modelled as explicit function parameters; `async`/`await` code is
sequential, so it is embedded as ordinary state-passing functions, with a
fuel parameter wherever the source recursion is not structural.
-/

/-- JavaScript strings, modelled as lists of characters. -/
abbrev Str := List Char

/-- Byte buffers (tarball contents), modelled as lists of naturals. -/
abbrev Bytes := List Nat

/-- Converts a Lean string literal into the `Str` model. -/
def str (s : String) : Str := s.data

/-- Lookup in an insertion-ordered association list (JavaScript object
property read: `obj[k]`, yielding `undefined`, i.e. `none`, when absent). -/
def alookup {α : Type} : List (Str × α) → Str → Option α
  | [], _ => none
  | p :: ps, k => if p.1 = k then some p.2 else alookup ps k

/-- Whether a key is present (JavaScript truthiness of `obj[k]` for object
values / `hasOwnProperty`). -/
def isKey {α : Type} (l : List (Str × α)) (k : Str) : Bool :=
  (alookup l k).isSome

/-- Overwrites the value stored at an existing key, keeping its position
(JavaScript `obj[k] = v` when `k` is already a property). -/
def aset {α : Type} (l : List (Str × α)) (k : Str) (v : α) : List (Str × α) :=
  l.map (fun p => if p.1 = k then (k, v) else p)

/-- JavaScript `obj[k] = v`: overwrite in place when present, append in
insertion order when absent. -/
def aupsert {α : Type} (l : List (Str × α)) (k : Str) (v : α) : List (Str × α) :=
  if isKey l k then aset l k v else l ++ [(k, v)]

/-- Removes a key (used for `fs.unlink` on the modelled cache directory). -/
def aerase {α : Type} (l : List (Str × α)) (k : Str) : List (Str × α) :=
  l.filter (fun p => decide (p.1 ≠ k))

/-- JavaScript `String.prototype.lastIndexOf` for a single character:
the greatest index holding `c`, or `-1` when absent. -/
def jsLastIndexOf : Str → Char → Int
  | [], _ => -1
  | x :: xs, c =>
    let r := jsLastIndexOf xs c
    if r = -1 then (if x = c then 0 else -1) else r + 1

/-- Clamps an index into `[0, len]`, as `String.prototype.substring` does. -/
def jsClamp (len i : Int) : Int := min (max i 0) len

/-- JavaScript `String.prototype.substring`: clamp both indices to
`[0, length]`, swap them if needed, and return the half-open slice. -/
def jsSubstring (s : Str) (start stop : Int) : Str :=
  let a := jsClamp s.length start
  let b := jsClamp s.length stop
  (s.take (max a b).toNat).drop (min a b).toNat

/-- JavaScript `String.prototype.split` on a single-character separator. -/
def jsSplit (c : Char) : Str → List Str
  | [] => [[]]
  | x :: xs =>
    if x = c then [] :: jsSplit c xs
    else
      match jsSplit c xs with
      | [] => [[x]]
      | h :: t => (x :: h) :: t

/-- JavaScript `String.prototype.replace` with a plain-string pattern:
replaces only the first occurrence (used for `name.replace("/", "-")`). -/
def replaceFirst : Str → Char → Char → Str
  | [], _, _ => []
  | x :: xs, a, b => if x = a then b :: xs else x :: replaceFirst xs a b

/-- From `src/src/utils.ts` (`parsePackageIdentifier`): split a package
identifier at the last `@`; the prefix is the name, the suffix the version. -/
def parsePackageIdentifier (packageIdentifier : Str) : Str × Str :=
  let atIndex := jsLastIndexOf packageIdentifier '@'
  (jsSubstring packageIdentifier 0 atIndex,
   jsSubstring packageIdentifier (atIndex + 1) packageIdentifier.length)

/-- Builds the package identifier `name + "@" + version` (template literal
used throughout the source). -/
def mkId (name version : Str) : Str := name ++ '@' :: version

/-- From `add.ts` (`addPackage`): the name/range split of the `add`
argument — `packageInfo.includes("@") ? packageInfo.split("@")
: [packageInfo, "latest"]`, destructured into its first two components. -/
def addPackageParse (packageInfo : Str) : Str × Str :=
  if '@' ∈ packageInfo then
    let parts := jsSplit '@' packageInfo
    (parts.headD [], (parts.drop 1).headD [])
  else (packageInfo, str "latest")

/-- From `add.ts` (`addPackage`): parse the argument and add/overwrite the
manifest dependency entry. -/
def addPackage (packageInfo : Str) (dependencies : List (Str × Str)) :
    List (Str × Str) :=
  let p := addPackageParse packageInfo
  aupsert dependencies p.1 p.2

/-- From `src/src/utils.ts` (`doesHashMatch`): split the integrity string on
`-` (destructuring takes the first two components), hash the file data with
the named algorithm, and compare. `hashFn` abstracts `crypto.createHash`;
comparison with a missing second component (`undefined`) is `false`. -/
def doesHashMatch (hashFn : Str → Bytes → Str) (fileData : Bytes)
    (expectedHash : Str) : Bool :=
  match jsSplit '-' expectedHash with
  | algorithm :: base64Hash :: _ =>
    if hashFn algorithm fileData = base64Hash then true else false
  | _ => false

/-! Basic lemmas about the string primitives. -/

theorem jsLastIndexOf_of_not_mem (c : Char) (s : Str) (h : c ∉ s) :
    jsLastIndexOf s c = -1 := by
  induction s with
  | nil => rfl
  | cons x xs ih =>
    simp only [List.mem_cons, not_or] at h
    simp [jsLastIndexOf, ih h.2, h.1, Ne.symm h.1]

theorem jsLastIndexOf_append (name version : Str) (hv : '@' ∉ version) :
    jsLastIndexOf (name ++ '@' :: version) '@' = name.length := by
  induction name with
  | nil =>
    simp [jsLastIndexOf, jsLastIndexOf_of_not_mem '@' version hv]
  | cons x xs ih =>
    have h2 : jsLastIndexOf (x :: (xs ++ '@' :: version)) '@' =
        (if (jsLastIndexOf (xs ++ '@' :: version) '@') = -1
          then (if x = '@' then 0 else -1)
          else jsLastIndexOf (xs ++ '@' :: version) '@' + 1) := rfl
    rw [List.cons_append, h2, ih]
    have h1 : ((xs.length : Int)) ≠ -1 := by omega
    rw [if_neg h1]
    simp only [List.length_cons]
    push_cast
    omega

theorem jsSubstring_eq_take_drop (s : Str) (a b : Nat) (hab : a ≤ b)
    (hb : b ≤ s.length) :
    jsSubstring s (a : Int) (b : Int) = (s.take b).drop a := by
  simp only [jsSubstring, jsClamp]
  have h1 : (max ((min (max (a : Int) 0) (s.length : Int)))
      ((min (max (b : Int) 0) (s.length : Int)))).toNat = b := by omega
  have h2 : (min ((min (max (a : Int) 0) (s.length : Int)))
      ((min (max (b : Int) 0) (s.length : Int)))).toNat = a := by omega
  rw [h1, h2]

/-- C8 helper: the two substring extractions at the last `@`. -/
theorem parsePackageIdentifier_append (name version : Str)
    (hv : '@' ∉ version) :
    parsePackageIdentifier (name ++ '@' :: version) = (name, version) := by
  have hidx := jsLastIndexOf_append name version hv
  have hlen : (name ++ '@' :: version).length = name.length + 1 + version.length := by
    simp; omega
  simp only [parsePackageIdentifier, hidx, Prod.mk.injEq]
  constructor
  · have h0 : ((0 : Nat) : Int) = (0 : Int) := rfl
    rw [← h0, jsSubstring_eq_take_drop _ 0 name.length (Nat.zero_le _)
      (by simp)]
    simp [List.take_left]
  · have hc : (name.length : Int) + 1 = ((name.length + 1 : Nat) : Int) := by
      push_cast; ring
    have hc2 : ((name ++ '@' :: version).length : Int) =
        (((name ++ '@' :: version).length : Nat) : Int) := rfl
    rw [hc, jsSubstring_eq_take_drop _ (name.length + 1)
      (name ++ '@' :: version).length (by omega) (le_refl _)]
    rw [List.take_length]
    have : name ++ '@' :: version = (name ++ ['@']) ++ version := by simp
    rw [this]
    have hl : name.length + 1 = (name ++ ['@']).length := by simp
    rw [hl, List.drop_left]

/-- C8: for every valid package name (bare or scoped: at most a leading `@`)
and every exact version containing no `@`,
`parsePackageIdentifier (name ++ "@" ++ version)` is exactly `(name, version)`. -/
theorem parsePackageIdentifier_roundtrip (name version : Str)
    (hname : '@' ∉ name.drop 1) (hversion : '@' ∉ version) :
    parsePackageIdentifier (mkId name version) = (name, version) := by
  exact parsePackageIdentifier_append name version hversion

/-- C8 witness: the scoped name `@scope/x` with version `1.0.0`. -/
theorem parsePackageIdentifier_roundtrip_witness :
    ('@' ∉ (str "@scope/x").drop 1) ∧ ('@' ∉ str "1.0.0") ∧
    parsePackageIdentifier (mkId (str "@scope/x") (str "1.0.0")) =
      (str "@scope/x", str "1.0.0") :=
  ⟨by decide, by decide,
    parsePackageIdentifier_roundtrip (str "@scope/x") (str "1.0.0")
      (by decide) (by decide)⟩

/-- C9: evaluating the `add` argument parser on the scoped spec
`@scope/x@1.0.0`. The code splits at every `@` and keeps the first two
components, so it yields name `""` and range `"scope/x"`, not the
last-`@`-at-positive-index split (`@scope/x`, `1.0.0`) the specification
describes; the nonsense entry `"": "scope/x"` is what lands in the manifest. -/
theorem addPackage_scoped_spec_misparsed :
    addPackageParse (str "@scope/x@1.0.0") = (str "", str "scope/x") ∧
    addPackageParse (str "@scope/x@1.0.0") ≠ (str "@scope/x", str "1.0.0") ∧
    addPackageParse (str "@scope/x") = (str "", str "scope/x") ∧
    addPackageParse (str "foo") = (str "foo", str "latest") ∧
    addPackage (str "@scope/x@1.0.0") [] = [(str "", str "scope/x")] := by
  refine ⟨by decide, by decide, by decide, by decide, by decide⟩

/-! The dependency-graph data model (`src/src/types.ts`) and the graph
builder (`src/src/graph.ts`, final revision `part_007`). -/

/-- `PackageInfo` from `src/src/types.ts`. -/
structure PackageInfo where
  version : Str
  tarballUrl : Str
  hash : Str
  isDirectDependency : Bool
  dependencies : List Str
deriving DecidableEq

/-- `DependencyGraph` from `src/src/types.ts`: a JavaScript object keyed by
package identifier, modelled as an insertion-ordered association list. -/
abbrev DependencyGraph := List (Str × PackageInfo)

/-- The registry metadata fetch (`getPackageInfo`'s network + LRU layer):
given a name and exact version, either the `PackageInfo` whose
`dependencies` are already resolved to exact identifiers and whose
`isDirectDependency` defaults to `false`, or `none` when the fetch throws. -/
abbrev Registry := Str → Str → Option PackageInfo

/-- Result of a graph build: `out` when the fuel is exhausted (the source
recursion did not finish within the given depth), `err` when a metadata
fetch threw, `ok` with the final graph otherwise. -/
inductive BuildRes where
  | out : BuildRes
  | err (id : Str) : BuildRes
  | ok (graph : DependencyGraph) : BuildRes
deriving DecidableEq

/-- The `for ... of` loop shape shared by the graph builder and the
orchestrator: thread the graph through `f` for each element, short-circuit
on the first non-`ok` result (a thrown error propagates past the loop). -/
def buildFold {α : Type} (f : α → DependencyGraph → BuildRes) :
    List α → BuildRes → BuildRes
  | [], acc => acc
  | a :: l, acc =>
    buildFold f l (match acc with | BuildRes.ok g => f a g | r => r)

/-- From `src/src/graph.ts` / `part_007` (`buildDependencyGraph`): if the
identifier is already a key, the code runs
`if (graph[id].isDirectDependency) graph[id].isDirectDependency = true`
and returns (note: the call's `directDependency` argument is not consulted);
otherwise it fetches the metadata, sets `isDirectDependency` to the
argument, inserts the node, and recurses into each dependency identifier. -/
def buildDependencyGraph (reg : Registry) :
    Nat → Str → Str → Bool → DependencyGraph → BuildRes
  | 0, _, _, _, _ => .out
  | fuel+1, packageName, exactVersion, directDependency, graph =>
    let packageIdentifier := mkId packageName exactVersion
    match alookup graph packageIdentifier with
    | some info =>
      .ok (if info.isDirectDependency
        then aset graph packageIdentifier { info with isDirectDependency := true }
        else graph)
    | none =>
      match reg packageName exactVersion with
      | none => .err packageIdentifier
      | some packageInfo =>
        let node := { packageInfo with isDirectDependency := directDependency }
        buildFold
          (fun depIdentifier g =>
            buildDependencyGraph reg fuel (parsePackageIdentifier depIdentifier).1
              (parsePackageIdentifier depIdentifier).2 false g)
          node.dependencies
          (.ok (graph ++ [(packageIdentifier, node)]))

/-- From `src/src/install.ts` (`determinePackageInstallation`, fresh-build
phase): for each manifest entry, resolve the range to an exact version
(`resolveVersion`, abstracted as `resolve`; `none` models a resolution
error) and build the graph with `directDependency = true`, starting from
the empty graph. -/
def buildFullGraph (resolve : Str → Str → Option Str) (reg : Registry)
    (fuel : Nat) (dependencies : List (Str × Str)) : BuildRes :=
  buildFold
    (fun p g =>
      match resolve p.1 p.2 with
      | none => .err (mkId p.1 p.2)
      | some exactVersion => buildDependencyGraph reg fuel p.1 exactVersion true g)
    dependencies
    (.ok [])

/-- From `src/src/graph.ts` (`didDependenciesChange`): the projection of the
locked graph to its direct entries, reduced to a name-to-version object by
parsing each key. -/
def directDependenciesOf (lockGraph : DependencyGraph) : List (Str × Str) :=
  (lockGraph.filter (fun p => p.2.isDirectDependency)).foldl
    (fun acc p =>
      aupsert acc (parsePackageIdentifier p.1).1 (parsePackageIdentifier p.1).2)
    []

/-- The body of `didDependenciesChange`'s first loop: a manifest entry
triggers `changed` when its name has no locked version (`!lockedVersion`
is JavaScript falsiness, so an empty string also triggers) or the locked
version does not satisfy the manifest range. -/
def changedEntry (satisfies : Str → Str → Bool)
    (directDependencies : List (Str × Str)) (p : Str × Str) : Bool :=
  match alookup directDependencies p.1 with
  | none => true
  | some lockedVersion =>
    if lockedVersion = [] then true else ! satisfies lockedVersion p.2

/-- From `src/src/graph.ts` (`didDependenciesChange`): `satisfies` abstracts
`semver.satisfies`. The `!lockedVersion` test is JavaScript falsiness, so an
absent name and an empty locked version both count as changed. -/
def didDependenciesChange (satisfies : Str → Str → Bool)
    (packageJsonDependencies : List (Str × Str))
    (lockGraph : DependencyGraph) : Bool :=
  let directDependencies := directDependenciesOf lockGraph
  if packageJsonDependencies.any (changedEntry satisfies directDependencies)
  then true
  else directDependencies.any (fun p => ! isKey packageJsonDependencies p.1)

/-! C1: the failing input for the direct-flag merge. -/

/-- Registry with `A@1` depending on `B@1`, and `B@1` with no dependencies. -/
def regDirect : Registry := fun n v =>
  if n = str "A" ∧ v = str "1" then
    some ⟨str "1", str "urlA", str "hashA", false, [str "B@1"]⟩
  else if n = str "B" ∧ v = str "1" then
    some ⟨str "1", str "urlB", str "hashB", false, []⟩
  else none

/-- C1: with manifest entries `A@1` then `B@1`, where `A@1` depends on
`B@1`, the build inserts `B@1` transitively first
(`isDirectDependency = false`); the later top-level call for `B@1` with
`direct = true` takes the already-present branch, whose statement
`if (graph[id].isDirectDependency) graph[id].isDirectDependency = true`
never merges the call's argument, so `B@1` ends the build with
`isDirectDependency = false`, not `existing OR direct = true` as claimed. -/
theorem buildDependencyGraph_no_or_merge :
    buildFullGraph (fun _ r => some r) regDirect 5
        [(str "A", str "1"), (str "B", str "1")] =
      .ok [(str "A@1", ⟨str "1", str "urlA", str "hashA", true, [str "B@1"]⟩),
           (str "B@1", ⟨str "1", str "urlB", str "hashB", false, []⟩)] ∧
    (alookup [(str "A@1",
          (⟨str "1", str "urlA", str "hashA", true, [str "B@1"]⟩ : PackageInfo)),
         (str "B@1", ⟨str "1", str "urlB", str "hashB", false, []⟩)]
        (str "B@1")).map PackageInfo.isDirectDependency = some false := by
  exact ⟨by decide, by decide⟩

/-! C2: the two-package dependency cycle. -/

/-- Registry with `A@1` and `B@1` depending on each other. -/
def regCycle : Registry := fun n v =>
  if n = str "A" ∧ v = str "1" then
    some ⟨str "1", str "urlA", str "hashA", false, [str "B@1"]⟩
  else if n = str "B" ∧ v = str "1" then
    some ⟨str "1", str "urlB", str "hashB", false, [str "A@1"]⟩
  else none

/-- The graph the cycle build produces: exactly two nodes, referencing each
other. -/
def graphCycle : DependencyGraph :=
  [(str "A@1", ⟨str "1", str "urlA", str "hashA", true, [str "B@1"]⟩),
   (str "B@1", ⟨str "1", str "urlB", str "hashB", false, [str "A@1"]⟩)]

/-- C2 (graph-build half): for every fuel of at least 3, the build on the
`A@1 ↔ B@1` cycle terminates with exactly the two mutually referencing
nodes — the already-present check breaks the recursion. -/
theorem buildDependencyGraph_cycle_terminates (fuel : Nat) :
    buildDependencyGraph regCycle (fuel + 3) (str "A") (str "1") true [] =
      .ok graphCycle := rfl

/-! The installer (`src/src/install.ts`, final revision `part_004`). The
on-disk `.cache` directory is modelled as an association list from tarball
filename to bytes; directory preparation under `node_modules` has no
observable effect on any property below and is represented by the
`extract` event. -/

/-- Observable effects of an install run. -/
inductive Event where
  | download (id url : Str) : Event
  | cacheRead (id path : Str) : Event
  | cacheWrite (id path : Str) (data : Bytes) : Event
  | cacheDelete (id path : Str) : Event
  | extract (id : Str) (data : Bytes) : Event
  | cleanup : Event
  | writeLock (graph : DependencyGraph) : Event
deriving DecidableEq

/-- Errors that abort an install run (all are fatal in the source: the
`installFromGraph` catch block calls `process.exit(1)`). -/
inductive Err where
  | notFound (id : Str) : Err
  | transport (url : Str) : Err
  | integrity (id : Str) : Err
  | enoent (path : Str) : Err
  | extractFailed (id : Str) : Err
  | resolutionOrFetch (id : Str) : Err
deriving DecidableEq

/-- Mutable state threaded through an install run: the on-disk tarball
cache, the run-scoped installed set, and the event log. -/
structure InstState where
  cache : List (Str × Bytes)
  installed : List Str
  events : List Event
deriving DecidableEq

/-- Result of an installer call: `out` when the fuel is exhausted (the
source recursion did not finish within the given depth). -/
inductive InstRes where
  | out : InstRes
  | fail (e : Err) (st : InstState) : InstRes
  | ok (st : InstState) : InstRes
deriving DecidableEq

/-- The installer's external collaborators: `hashFn` abstracts
`crypto.createHash(algorithm).update(data).digest("base64")`, `net`
abstracts the tarball download (`none` = transport error), `tarOk`
abstracts whether the `tar -xzf` subprocess succeeds on the given bytes. -/
structure InstEnv where
  hashFn : Str → Bytes → Str
  net : Str → Option Bytes
  tarOk : Bytes → Bool

/-- From `src/src/install.ts` (`retrieveTarball`): read the tarball from the
cache when present, else download it; `none` models the `axios` throw. -/
def retrieveTarball (env : InstEnv) (packageIdentifier : Str)
    (packageInfo : PackageInfo) (cacheTarPath : Str) (st : InstState) :
    Option (Bytes × Bool) × InstState :=
  match alookup st.cache cacheTarPath with
  | some data =>
    (some (data, true),
     { st with events := st.events ++ [.cacheRead packageIdentifier cacheTarPath] })
  | none =>
    match env.net packageInfo.tarballUrl with
    | some data =>
      (some (data, false),
       { st with events := st.events ++
          [.download packageIdentifier packageInfo.tarballUrl] })
    | none => (none, st)

/-- From `src/src/install.ts` (`extractTarball`): verify the hash; when it
matches, write the bytes to the cache if they were not read from it, then
extract from the cache path (the file's current content at that moment);
when it does not match, the code always runs `fs.unlink(cacheTarPath)` and
then throws the validation error — when no cache entry exists the unlink
itself rejects with `ENOENT`, so that error replaces the validation one. -/
def extractTarball (env : InstEnv) (packageIdentifier : Str)
    (packageInfo : PackageInfo) (cacheTarPath : Str) (tarData : Bytes)
    (isTarCached : Bool) (st : InstState) : InstRes :=
  if doesHashMatch env.hashFn tarData packageInfo.hash then
    let st1 :=
      if isTarCached then st
      else { st with
        cache := aupsert st.cache cacheTarPath tarData,
        events := st.events ++ [.cacheWrite packageIdentifier cacheTarPath tarData] }
    let fileData := (alookup st1.cache cacheTarPath).getD []
    if env.tarOk fileData then
      .ok { st1 with events := st1.events ++ [.extract packageIdentifier fileData] }
    else .fail (.extractFailed packageIdentifier) st1
  else
    match alookup st.cache cacheTarPath with
    | some _ =>
      .fail (.integrity packageIdentifier)
        { st with
          cache := aerase st.cache cacheTarPath,
          events := st.events ++ [.cacheDelete packageIdentifier cacheTarPath] }
    | none => .fail (.enoent cacheTarPath) st

/-- The `for ... of` loop shape shared by `installPackage` (dependency
recursion) and `installFromGraph` (iteration over the graph keys): thread
the state through `f`, short-circuiting on the first non-`ok` result. -/
def instFold {α : Type} (f : α → InstState → InstRes) :
    List α → InstRes → InstRes
  | [], acc => acc
  | a :: l, acc =>
    instFold f l (match acc with | InstRes.ok st => f a st | r => r)

/-- From `src/src/install.ts` (`installPackage`): skip if already installed,
recursively install the dependencies, then retrieve, verify/extract, and
record the identifier in the installed set. -/
def installPackage (env : InstEnv) :
    Nat → Str → DependencyGraph → InstState → InstRes
  | 0, _, _, _ => .out
  | fuel+1, packageIdentifier, graph, st =>
    if packageIdentifier ∈ st.installed then .ok st
    else
      match alookup graph packageIdentifier with
      | none => .fail (.notFound packageIdentifier) st
      | some packageInfo =>
        match instFold
            (fun dep st1 => installPackage env fuel dep graph st1)
            packageInfo.dependencies (.ok st) with
        | .out => .out
        | .fail e st1 => .fail e st1
        | .ok st1 =>
          let packageName := (parsePackageIdentifier packageIdentifier).1
          let cacheTarPath :=
            replaceFirst packageName '/' '-' ++ '-' :: packageInfo.version ++ str ".tgz"
          match retrieveTarball env packageIdentifier packageInfo cacheTarPath st1 with
          | (none, st2) => .fail (.transport packageInfo.tarballUrl) st2
          | (some (tarData, isTarCached), st2) =>
            match extractTarball env packageIdentifier packageInfo cacheTarPath
                tarData isTarCached st2 with
            | .ok st3 =>
              .ok { st3 with installed := packageIdentifier :: st3.installed }
            | .fail e st3 => .fail e st3
            | .out => .out

/-- From `src/src/install.ts` (`installFromGraph`): install every key of the
graph in insertion order, aborting on the first error. -/
def installFromGraph (env : InstEnv) (fuel : Nat) (graph : DependencyGraph)
    (st : InstState) : InstRes :=
  instFold
    (fun packageIdentifier st1 => installPackage env fuel packageIdentifier graph st1)
    (graph.map Prod.fst) (.ok st)

/-- From `src/src/install.ts` (`cleanupUnusedPackages`): prunes stale
top-level `node_modules` entries. The pruning touches only the module
directory, which no property below observes; the call is recorded as the
`cleanup` event so that its position in the run can be stated. -/
def cleanupUnusedPackages (st : InstState) : InstState :=
  { st with events := st.events ++ [.cleanup] }

/-- From `src/src/install.ts` (`determinePackageInstallation`, fresh-build
branch): build the full graph from the manifest, install it, clean up, and
only then save the lock file (`saveLockFile`, recorded as the `writeLock`
event). -/
def freshInstall (env : InstEnv) (resolve : Str → Str → Option Str)
    (reg : Registry) (fuel : Nat) (dependencies : List (Str × Str))
    (st : InstState) : InstRes :=
  match buildFullGraph resolve reg fuel dependencies with
  | .out => .out
  | .err id => .fail (.resolutionOrFetch id) st
  | .ok fullGraph =>
    match installFromGraph env fuel fullGraph st with
    | .ok st1 =>
      let st2 := cleanupUnusedPackages st1
      .ok { st2 with events := st2.events ++ [.writeLock fullGraph] }
    | r => r

/-- From `src/src/install.ts` (`determinePackageInstallation`): when a lock
file exists and the reconciler reports no change, install from the locked
graph, clean up, and return without writing the lock; otherwise run the
fresh build-install-cleanup-save sequence. -/
def determinePackageInstallation (env : InstEnv)
    (satisfies : Str → Str → Bool) (resolve : Str → Str → Option Str)
    (reg : Registry) (fuel : Nat) (dependencies : List (Str × Str))
    (lockGraph : Option DependencyGraph) (st : InstState) : InstRes :=
  match lockGraph with
  | some lockedGraph =>
    if didDependenciesChange satisfies dependencies lockedGraph then
      freshInstall env resolve reg fuel dependencies st
    else
      match installFromGraph env fuel lockedGraph st with
      | .ok st1 => .ok (cleanupUnusedPackages st1)
      | r => r
  | none => freshInstall env resolve reg fuel dependencies st

/-- C2 helper: on the cyclic two-node graph the installer recursion never
reaches its memoization check, because an identifier is added to the
installed set only after all its dependencies have been processed; every
fuel is exhausted. -/
theorem installPackage_cycle_out (env : InstEnv) :
    ∀ (fuel : Nat) (st : InstState),
      str "A@1" ∉ st.installed → str "B@1" ∉ st.installed →
      installPackage env fuel (str "A@1") graphCycle st = .out ∧
      installPackage env fuel (str "B@1") graphCycle st = .out := by
  intro fuel
  induction fuel with
  | zero => intro st hA hB; exact ⟨rfl, rfl⟩
  | succ fuel ih =>
    intro st hA hB
    have hgA : alookup graphCycle (str "A@1") =
        some ⟨str "1", str "urlA", str "hashA", true, [str "B@1"]⟩ := by decide
    have hgB : alookup graphCycle (str "B@1") =
        some ⟨str "1", str "urlB", str "hashB", false, [str "A@1"]⟩ := by decide
    refine ⟨?_, ?_⟩
    · have h2 := (ih st hA hB).2
      simp [installPackage, instFold, hA, hgA, h2]
    · have h1 := (ih st hA hB).1
      simp [installPackage, instFold, hB, hgB, h1]

/-- C2: the graph build for the `A@1 ↔ B@1` cycle terminates with exactly
the two mutually referencing nodes, but the installer on that graph never
terminates: the installed set gains an identifier only after its
dependencies finish, so the `A → B → A` recursion never hits the
memoization check and exhausts every fuel, for every environment. -/
theorem cycle_build_terminates_but_install_diverges :
    (∀ fuel : Nat,
      buildDependencyGraph regCycle (fuel + 3) (str "A") (str "1") true [] =
        .ok graphCycle) ∧
    (∀ (env : InstEnv) (fuel : Nat),
      installPackage env fuel (str "A@1") graphCycle ⟨[], [], []⟩ = .out) ∧
    (∀ (env : InstEnv) (fuel : Nat),
      installFromGraph env fuel graphCycle ⟨[], [], []⟩ = .out) := by
  refine ⟨buildDependencyGraph_cycle_terminates, ?_, ?_⟩
  · intro env fuel
    exact (installPackage_cycle_out env fuel ⟨[], [], []⟩ (by simp) (by simp)).1
  · intro env fuel
    have h := (installPackage_cycle_out env fuel ⟨[], [], []⟩ (by simp) (by simp)).1
    have hkeys : graphCycle.map Prod.fst = [str "A@1", str "B@1"] := by decide
    simp only [installFromGraph, hkeys, instFold]
    rw [h]

/-! Association-list lemmas. -/

theorem alookup_append_some {α : Type} {l1 : List (Str × α)} (l2 : List (Str × α))
    {k : Str} {v : α} (h : alookup l1 k = some v) :
    alookup (l1 ++ l2) k = some v := by
  induction l1 with
  | nil => simp [alookup] at h
  | cons p ps ih =>
    by_cases hp : p.1 = k
    · simp [alookup, hp] at h ⊢; exact h
    · simp [alookup, hp] at h ⊢; exact ih h

theorem alookup_append_none {α : Type} {l1 : List (Str × α)} (l2 : List (Str × α))
    {k : Str} (h : alookup l1 k = none) :
    alookup (l1 ++ l2) k = alookup l2 k := by
  induction l1 with
  | nil => rfl
  | cons p ps ih =>
    by_cases hp : p.1 = k
    · simp [alookup, hp] at h
    · simp [alookup, hp] at h ⊢; exact ih h

theorem alookup_aset {α : Type} (g : List (Str × α)) (id k : Str) (v : α) :
    alookup (aset g id v) k =
      if k = id then (alookup g id).map (fun _ => v) else alookup g k := by
  induction g with
  | nil => by_cases h : k = id <;> simp [aset, alookup, h]
  | cons p ps ih =>
    simp only [aset, List.map] at ih ⊢
    by_cases hp : p.1 = id
    · by_cases hk : k = id
      · subst hk; simp [alookup, hp, ih]
      · have hik : ¬ id = k := fun hh => hk hh.symm
        have hpk : ¬ p.1 = k := by rw [hp]; exact hik
        simp [alookup, hp, hk, hik, hpk, ih]
    · by_cases hk : k = id
      · subst hk
        have hpk : ¬ p.1 = k := hp
        simp [alookup, hp, hpk, ih]
      · by_cases hpk : p.1 = k
        · simp [alookup, hp, hpk, hk, ih]
        · simp [alookup, hp, hpk, hk, ih]

theorem isKey_aset {α : Type} (g : List (Str × α)) (id k : Str) (v : α) :
    isKey (aset g id v) k = isKey g k := by
  by_cases hk : k = id
  · subst hk
    simp only [isKey, alookup_aset, if_pos rfl]
    cases alookup g k <;> rfl
  · simp only [isKey, alookup_aset, if_neg hk]

/-! Decomposition of a string at its last `@`, and the re-join law. -/

theorem exists_split_last_at (s : Str) (h : '@' ∈ s) :
    ∃ n v, s = n ++ '@' :: v ∧ '@' ∉ v := by
  induction s with
  | nil => simp at h
  | cons c t ih =>
    by_cases ht : '@' ∈ t
    · obtain ⟨n, v, rfl, hv⟩ := ih ht
      exact ⟨c :: n, v, rfl, hv⟩
    · have hc : c = '@' := by
        rcases List.mem_cons.mp h with h1 | h2
        · exact h1.symm
        · exact absurd h2 ht
      subst hc
      exact ⟨[], t, rfl, ht⟩

theorem mkId_parse (s : Str) (h : '@' ∈ s) :
    mkId (parsePackageIdentifier s).1 (parsePackageIdentifier s).2 = s := by
  obtain ⟨n, v, rfl, hv⟩ := exists_split_last_at s h
  rw [parsePackageIdentifier_append n v hv]
  rfl

/-! Closure of built graphs (C5). -/

/-- What `getPackageInfo` guarantees about fetched metadata: every
dependency entry is an identifier of the form `name + "@" + exactVersion`
(the code builds it with a template literal), so it contains an `@`. -/
def WfRegistry (reg : Registry) : Prop :=
  ∀ n v i, reg n v = some i → ∀ dep ∈ i.dependencies, '@' ∈ dep

/-- Key-set growth between two graphs. -/
def GraphLe (g g' : DependencyGraph) : Prop :=
  ∀ k, isKey g k = true → isKey g' k = true

/-- The closure invariant: every identifier in any node's dependencies list
is itself a key of the graph. -/
def ClosedGraph (g : DependencyGraph) : Prop :=
  ∀ pid info, alookup g pid = some info →
    ∀ dep ∈ info.dependencies, isKey g dep = true

/-- Every node of `g'` either already existed in `g` with the same
dependencies list, or has all its dependencies present in `g'`. -/
def NewNodesClosed (g g' : DependencyGraph) : Prop :=
  ∀ pid info', alookup g' pid = some info' →
    (∃ info, alookup g pid = some info ∧
      info'.dependencies = info.dependencies) ∨
    (∀ dep ∈ info'.dependencies, isKey g' dep = true)

/-- The invariant a single `buildDependencyGraph` call preserves. -/
def BuildExtends (g g' : DependencyGraph) : Prop :=
  GraphLe g g' ∧ NewNodesClosed g g'

theorem buildExtends_refl (g : DependencyGraph) : BuildExtends g g :=
  ⟨fun _ h => h, fun _ info' h => .inl ⟨info', h, rfl⟩⟩

theorem buildExtends_trans {a b c : DependencyGraph}
    (h1 : BuildExtends a b) (h2 : BuildExtends b c) : BuildExtends a c := by
  refine ⟨fun k hk => h2.1 k (h1.1 k hk), ?_⟩
  intro pid info' hl
  rcases h2.2 pid info' hl with ⟨info, hb, hdeps⟩ | hclosed
  · rcases h1.2 pid info hb with ⟨info0, ha, hdeps0⟩ | hclosed0
    · exact .inl ⟨info0, ha, hdeps.trans hdeps0⟩
    · exact .inr fun dep hdep => h2.1 dep (hclosed0 dep (hdeps ▸ hdep))
  · exact .inr hclosed

theorem buildFold_not_ok {α : Type} (f : α → DependencyGraph → BuildRes) :
    ∀ (l : List α) (r : BuildRes), (∀ g, r ≠ .ok g) → buildFold f l r = r := by
  intro l
  induction l with
  | nil => intro r _; rfl
  | cons a t ih =>
    intro r h
    cases r with
    | ok g => exact absurd rfl (h g)
    | out => simp only [buildFold]; exact ih _ h
    | err id => simp only [buildFold]; exact ih _ h

theorem buildFold_ok_rel {α : Type} (f : α → DependencyGraph → BuildRes)
    (R : DependencyGraph → DependencyGraph → Prop)
    (hrefl : ∀ g, R g g)
    (htrans : ∀ {a b c}, R a b → R b c → R a c)
    (hf : ∀ x g g', f x g = .ok g' → R g g') :
    ∀ (l : List α) (g g' : DependencyGraph),
      buildFold f l (.ok g) = .ok g' → R g g' := by
  intro l
  induction l with
  | nil =>
    intro g g' h
    simp only [buildFold] at h
    injection h with h
    subst h
    exact hrefl g
  | cons a t ih =>
    intro g g' h
    simp only [buildFold] at h
    cases hfa : f a g with
    | ok g1 =>
      rw [hfa] at h
      exact htrans (hf a g g1 hfa) (ih g1 g' h)
    | out =>
      rw [hfa, buildFold_not_ok f t _ (fun g0 hh => BuildRes.noConfusion hh)] at h
      exact absurd h (fun hh => BuildRes.noConfusion hh)
    | err id =>
      rw [hfa, buildFold_not_ok f t _ (fun g0 hh => BuildRes.noConfusion hh)] at h
      exact absurd h (fun hh => BuildRes.noConfusion hh)

theorem buildFold_deps_keys (reg : Registry) (fuel : Nat)
    (hstep : ∀ n v d g g', buildDependencyGraph reg fuel n v d g = .ok g' →
      BuildExtends g g' ∧ isKey g' (mkId n v) = true) :
    ∀ (l : List Str) (g g' : DependencyGraph),
      buildFold (fun dep g0 => buildDependencyGraph reg fuel
          (parsePackageIdentifier dep).1 (parsePackageIdentifier dep).2 false g0)
        l (.ok g) = .ok g' →
      BuildExtends g g' ∧
      ∀ dep ∈ l, isKey g' (mkId (parsePackageIdentifier dep).1
        (parsePackageIdentifier dep).2) = true := by
  intro l
  induction l with
  | nil =>
    intro g g' h
    simp only [buildFold] at h
    injection h with h
    subst h
    exact ⟨buildExtends_refl g, by simp⟩
  | cons a t ih =>
    intro g g' h
    simp only [buildFold] at h
    cases hfa : buildDependencyGraph reg fuel (parsePackageIdentifier a).1
        (parsePackageIdentifier a).2 false g with
    | ok g1 =>
      rw [hfa] at h
      obtain ⟨hext, hkeys⟩ := ih g1 g' h
      have hstep1 := hstep _ _ _ _ _ hfa
      refine ⟨buildExtends_trans hstep1.1 hext, ?_⟩
      intro dep hdep
      rcases List.mem_cons.mp hdep with rfl | hdep'
      · exact hext.1 _ hstep1.2
      · exact hkeys dep hdep'
    | out =>
      rw [hfa, buildFold_not_ok _ t _ (fun g0 hh => BuildRes.noConfusion hh)] at h
      exact absurd h (fun hh => BuildRes.noConfusion hh)
    | err id =>
      rw [hfa, buildFold_not_ok _ t _ (fun g0 hh => BuildRes.noConfusion hh)] at h
      exact absurd h (fun hh => BuildRes.noConfusion hh)

/-- C5 helper: a successful `buildDependencyGraph` call only extends the
graph, keeps every pre-existing node's dependencies list, closes every node
it adds, and ends with the requested identifier present. -/
theorem buildDependencyGraph_extends (reg : Registry) (hreg : WfRegistry reg) :
    ∀ (fuel : Nat) (n v : Str) (d : Bool) (g g' : DependencyGraph),
      buildDependencyGraph reg fuel n v d g = .ok g' →
      BuildExtends g g' ∧ isKey g' (mkId n v) = true := by
  intro fuel
  induction fuel with
  | zero =>
    intro n v d g g' h
    exact absurd h (fun hh => BuildRes.noConfusion hh)
  | succ fuel ih =>
    intro n v d g g' h
    simp only [buildDependencyGraph] at h
    cases hl : alookup g (mkId n v) with
    | some info =>
      rw [hl] at h
      simp only [] at h
      injection h with h
      by_cases hflag : info.isDirectDependency
      · rw [if_pos hflag] at h
        subst h
        refine ⟨⟨?_, ?_⟩, ?_⟩
        · intro k hk
          rw [isKey_aset]
          exact hk
        · intro pid' i' hl'
          rw [alookup_aset] at hl'
          by_cases hpk : pid' = mkId n v
          · rw [if_pos hpk, hl] at hl'
            simp only [Option.map] at hl'
            injection hl' with hl'
            subst hl'
            exact .inl ⟨info, hpk ▸ hl, rfl⟩
          · rw [if_neg hpk] at hl'
            exact .inl ⟨i', hl', rfl⟩
        · rw [isKey_aset]
          simp [isKey, hl]
      · rw [if_neg hflag] at h
        subst h
        exact ⟨buildExtends_refl g, by simp [isKey, hl]⟩
    | none =>
      rw [hl] at h
      cases hr : reg n v with
      | none =>
        rw [hr] at h
        exact absurd h (fun hh => BuildRes.noConfusion hh)
      | some packageInfo =>
        rw [hr] at h
        simp only [] at h
        obtain ⟨hext1, hkeys⟩ :=
          buildFold_deps_keys reg fuel (fun n' v' d' g0 g1 hh => ih n' v' d' g0 g1 hh)
            _ _ _ h
        have hpid : alookup
            (g ++ [(mkId n v, { packageInfo with isDirectDependency := d })])
            (mkId n v) = some { packageInfo with isDirectDependency := d } := by
          rw [alookup_append_none _ hl]
          simp [alookup]
        have hkeyapp : ∀ (k : Str), isKey g k = true →
            isKey (g ++ [(mkId n v, { packageInfo with isDirectDependency := d })])
              k = true := by
          intro k hk
          unfold isKey at hk ⊢
          cases hak : alookup g k with
          | none => rw [hak] at hk; simp at hk
          | some w => rw [alookup_append_some _ hak]; rfl
        refine ⟨⟨?_, ?_⟩, hext1.1 _ (by simp [isKey, hpid])⟩
        · intro k hk
          exact hext1.1 k (hkeyapp k hk)
        · intro pid' i' hl'
          rcases hext1.2 pid' i' hl' with ⟨i1, h1, hdeps⟩ | hcl
          · cases hg0 : alookup g pid' with
            | some i0 =>
              rw [alookup_append_some _ hg0] at h1
              injection h1 with h1
              exact .inl ⟨i0, rfl,
                hdeps.trans (congrArg PackageInfo.dependencies h1).symm⟩
            | none =>
              rw [alookup_append_none _ hg0] at h1
              by_cases hpp : mkId n v = pid'
              · simp only [alookup, if_pos hpp] at h1
                injection h1 with h1
                right
                intro dep hdep
                rw [hdeps, ← h1] at hdep
                have hdep' : dep ∈ packageInfo.dependencies := hdep
                have hat : '@' ∈ dep := hreg n v packageInfo hr dep hdep'
                have hk := hkeys dep hdep'
                rw [mkId_parse dep hat] at hk
                exact hk
              · simp only [alookup, if_neg hpp] at h1
                cases h1
          · exact .inr hcl

/-- C5: every graph produced by a completed graph build (the orchestrator's
fresh-build phase over the manifest, starting from the empty graph) is
closed: every identifier in any node's dependencies list is itself a
top-level key. Requires only that fetched metadata lists dependencies in
`name@exactVersion` form, which `getPackageInfo` guarantees by
construction. The lock file serializes exactly this graph. -/
theorem buildFullGraph_closure (resolve : Str → Str → Option Str)
    (reg : Registry) (fuel : Nat) (dependencies : List (Str × Str))
    (g : DependencyGraph) (hreg : WfRegistry reg)
    (h : buildFullGraph resolve reg fuel dependencies = .ok g) :
    ClosedGraph g := by
  simp only [buildFullGraph] at h
  have hext : BuildExtends [] g := by
    refine buildFold_ok_rel _ BuildExtends buildExtends_refl
      (fun h1 h2 => buildExtends_trans h1 h2) ?_ dependencies [] g h
    intro p g0 g1 hf
    cases hres : resolve p.1 p.2 with
    | none =>
      rw [hres] at hf
      exact absurd hf (fun hh => BuildRes.noConfusion hh)
    | some exactVersion =>
      rw [hres] at hf
      exact (buildDependencyGraph_extends reg hreg fuel p.1 exactVersion
        true g0 g1 hf).1
  intro pid info hl dep hdep
  rcases hext.2 pid info hl with ⟨i0, h0, _⟩ | hcl
  · exact Option.noConfusion h0
  · exact hcl dep hdep

/-- C5 witness: the mutually recursive registry, built from the manifest
containing only `A@1`; the resulting two-node graph is closed. -/
theorem buildFullGraph_closure_witness :
    WfRegistry regCycle ∧
    buildFullGraph (fun _ r => some r) regCycle 5 [(str "A", str "1")] =
      .ok graphCycle ∧
    ClosedGraph graphCycle := by
  have hreg : WfRegistry regCycle := by
    intro n v i h dep hdep
    unfold regCycle at h
    by_cases h1 : n = str "A" ∧ v = str "1"
    · rw [if_pos h1] at h
      injection h with h
      subst h
      simp only [List.mem_singleton] at hdep
      subst hdep
      decide
    · rw [if_neg h1] at h
      by_cases h2 : n = str "B" ∧ v = str "1"
      · rw [if_pos h2] at h
        injection h with h
        subst h
        simp only [List.mem_singleton] at hdep
        subst hdep
        decide
      · rw [if_neg h2] at h
        cases h
  have hbuild : buildFullGraph (fun _ r => some r) regCycle 5
      [(str "A", str "1")] = .ok graphCycle := by decide
  exact ⟨hreg, hbuild, buildFullGraph_closure _ _ _ _ _ hreg hbuild⟩

/-- C6 helper: when an empty version satisfies nothing (true of
`semver.satisfies`), a manifest entry triggers `changed` exactly when its
name is absent from the direct projection or its locked version fails the
range. -/
theorem changedEntry_eq_true_iff (satisfies : Str → Str → Bool)
    (D : List (Str × Str)) (p : Str × Str)
    (hsat : satisfies [] = fun _ => false) :
    changedEntry satisfies D p = true ↔
      (alookup D p.1 = none ∨
        ∃ v, alookup D p.1 = some v ∧ satisfies v p.2 = false) := by
  unfold changedEntry
  cases halo : alookup D p.1 with
  | none => simp
  | some v =>
    by_cases hv : v = []
    · subst hv
      simp only [if_pos rfl]
      refine ⟨fun _ => Or.inr ⟨[], rfl, ?_⟩, fun _ => rfl⟩
      rw [hsat]
    · simp only [if_neg hv]
      constructor
      · intro hL
        exact Or.inr ⟨v, rfl, by simpa using hL⟩
      · intro hR
        rcases hR with h | ⟨v', hv', hsatv⟩
        · exact Option.noConfusion h
        · injection hv' with hv'
          subst hv'
          simpa using hsatv

/-- C6: provided an empty version satisfies no range (true of
`semver.satisfies`), the reconciler reports `changed` exactly when some
manifest name is missing from the locked graph's direct projection, or its
locked exact version fails the manifest range, or some direct projection
name is absent from the manifest; and transitive (non-direct) nodes never
influence the verdict — the reconciler factors through the direct filter. -/
theorem didDependenciesChange_characterization (satisfies : Str → Str → Bool)
    (M : List (Str × Str)) (L : DependencyGraph)
    (hsat : satisfies [] = fun _ => false) :
    (didDependenciesChange satisfies M L = true ↔
      ((∃ p ∈ M, alookup (directDependenciesOf L) p.1 = none ∨
          ∃ v, alookup (directDependenciesOf L) p.1 = some v ∧
            satisfies v p.2 = false) ∨
        (∃ q ∈ directDependenciesOf L, alookup M q.1 = none))) ∧
    didDependenciesChange satisfies M L =
      didDependenciesChange satisfies M
        (L.filter (fun p => p.2.isDirectDependency)) := by
  constructor
  · simp only [didDependenciesChange]
    split_ifs with hany
    · constructor
      · intro _
        left
        rw [List.any_eq_true] at hany
        obtain ⟨p, hp, hfp⟩ := hany
        exact ⟨p, hp, (changedEntry_eq_true_iff satisfies _ p hsat).mp hfp⟩
      · intro _
        rfl
    · rw [List.any_eq_true]
      constructor
      · rintro ⟨q, hq, hq2⟩
        right
        refine ⟨q, hq, ?_⟩
        cases ha : alookup M q.1 with
        | none => rfl
        | some w =>
          unfold isKey at hq2
          rw [ha] at hq2
          simp at hq2
      · intro hR
        rcases hR with ⟨p, hp, hcase⟩ | ⟨q, hq, hqnone⟩
        · exfalso
          apply hany
          rw [List.any_eq_true]
          exact ⟨p, hp, (changedEntry_eq_true_iff satisfies _ p hsat).mpr hcase⟩
        · exact ⟨q, hq, by simp [isKey, hqnone]⟩
  · have hff : (L.filter (fun p => p.2.isDirectDependency)).filter
        (fun p => p.2.isDirectDependency) =
        L.filter (fun p => p.2.isDirectDependency) := by
      rw [List.filter_filter]
      simp only [Bool.and_self]
    simp only [didDependenciesChange, directDependenciesOf, hff]

/-- C6 witness: a one-entry manifest against the cycle graph (direct node
`A@1`, transitive node `B@1`), with a concrete satisfaction predicate that
rejects the empty version. -/
theorem didDependenciesChange_characterization_witness :
    ((fun (v : Str) (_ : Str) => !v.isEmpty) [] = fun _ => false) ∧
    ((didDependenciesChange (fun (v : Str) (_ : Str) => !v.isEmpty)
        [(str "A", str "r")] graphCycle = true ↔
      ((∃ p ∈ [(str "A", str "r")],
          alookup (directDependenciesOf graphCycle) p.1 = none ∨
          ∃ v, alookup (directDependenciesOf graphCycle) p.1 = some v ∧
            (fun (v : Str) (_ : Str) => !v.isEmpty) v p.2 = false) ∨
        (∃ q ∈ directDependenciesOf graphCycle,
          alookup [(str "A", str "r")] q.1 = none))) ∧
      didDependenciesChange (fun (v : Str) (_ : Str) => !v.isEmpty)
          [(str "A", str "r")] graphCycle =
        didDependenciesChange (fun (v : Str) (_ : Str) => !v.isEmpty)
          [(str "A", str "r")]
          (graphCycle.filter (fun p => p.2.isDirectDependency))) :=
  ⟨rfl, didDependenciesChange_characterization _ _ _ rfl⟩

/-! C3: integrity-failure handling. -/

/-- One-node graph whose integrity string never matches the fetched bytes
under `envMismatch`. -/
def graphMismatch : DependencyGraph :=
  [(str "p@1.0.0", ⟨str "1.0.0", str "urlP", str "sha512-expected", true, []⟩)]

/-- Environment in which every hash computation yields `"actual"`, so
verification against `sha512-expected` always fails. -/
def envMismatch : InstEnv :=
  ⟨fun _ _ => str "actual", fun _ => some [1, 2, 3], fun _ => true⟩

/-- C3: on integrity failure the code runs `fs.unlink(cacheTarPath)`
unconditionally. With a cached tarball this deletes the entry and aborts
with the integrity error, as claimed; but with a freshly downloaded tarball
no cache entry exists, the unlink rejects with `ENOENT`, and the run aborts
with that filesystem error instead of an integrity error naming the
package. -/
theorem extractTarball_mismatch_fresh_vs_cached :
    installPackage envMismatch 1 (str "p@1.0.0") graphMismatch ⟨[], [], []⟩ =
      .fail (.enoent (str "p-1.0.0.tgz"))
        ⟨[], [], [.download (str "p@1.0.0") (str "urlP")]⟩ ∧
    installPackage envMismatch 1 (str "p@1.0.0") graphMismatch
        ⟨[(str "p-1.0.0.tgz", [9])], [], []⟩ =
      .fail (.integrity (str "p@1.0.0"))
        ⟨[], [], [.cacheRead (str "p@1.0.0") (str "p-1.0.0.tgz"),
          .cacheDelete (str "p@1.0.0") (str "p-1.0.0.tgz")]⟩ := by
  exact ⟨by decide, by decide⟩

/-! C4: tarball bytes reach the disk only after hash verification. -/

/-- The state an installer call ends in, when it did not run out of fuel
(both successful and aborting runs leave an observable state). -/
def resState : InstRes → Option InstState
  | .out => none
  | .fail _ st => some st
  | .ok st => some st

/-- An event is verified when any cache write or extraction it denotes
carries bytes whose hash matches the integrity string recorded in the
graph node it belongs to. -/
def VerifiedEvent (hashFn : Str → Bytes → Str) (graph : DependencyGraph) :
    Event → Prop
  | .cacheWrite id _ data =>
    ∃ info, alookup graph id = some info ∧
      doesHashMatch hashFn data info.hash = true
  | .extract id data =>
    ∃ info, alookup graph id = some info ∧
      doesHashMatch hashFn data info.hash = true
  | _ => True

theorem alookup_aupsert_self {α : Type} (l : List (Str × α)) (k : Str) (v : α) :
    alookup (aupsert l k v) k = some v := by
  unfold aupsert
  by_cases hk : isKey l k = true
  · rw [if_pos hk, alookup_aset, if_pos rfl]
    unfold isKey at hk
    cases ha : alookup l k with
    | none => rw [ha] at hk; simp at hk
    | some w => simp [ha]
  · rw [if_neg hk]
    have hnone : alookup l k = none := by
      unfold isKey at hk
      cases ha : alookup l k with
      | none => rfl
      | some w => rw [ha] at hk; simp at hk
    rw [alookup_append_none _ hnone]
    simp [alookup]

theorem instFold_not_ok {α : Type} (f : α → InstState → InstRes) :
    ∀ (l : List α) (r : InstRes), (∀ s, r ≠ .ok s) → instFold f l r = r := by
  intro l
  induction l with
  | nil => intro r _; rfl
  | cons a t ih =>
    intro r h
    cases r with
    | ok s => exact absurd rfl (h s)
    | out => simp only [instFold]; exact ih _ h
    | fail e s => simp only [instFold]; exact ih _ h

theorem instFold_rel {α : Type} (f : α → InstState → InstRes)
    (R : InstState → InstState → Prop)
    (hrefl : ∀ s, R s s)
    (htrans : ∀ {a b c}, R a b → R b c → R a c)
    (hf : ∀ d s s', resState (f d s) = some s' → R s s') :
    ∀ (l : List α) (st st' : InstState),
      resState (instFold f l (.ok st)) = some st' → R st st' := by
  intro l
  induction l with
  | nil =>
    intro st st' h
    simp only [instFold, resState] at h
    injection h with h
    subst h
    exact hrefl st
  | cons a t ih =>
    intro st st' h
    simp only [instFold] at h
    cases hfa : f a st with
    | ok s1 =>
      rw [hfa] at h
      exact htrans (hf a st s1 (by rw [hfa]; rfl)) (ih s1 st' h)
    | out =>
      rw [hfa, instFold_not_ok f t _ (fun s0 hh => InstRes.noConfusion hh)] at h
      exact absurd h (by simp [resState])
    | fail e s1 =>
      rw [hfa, instFold_not_ok f t _ (fun s0 hh => InstRes.noConfusion hh)] at h
      simp only [resState] at h
      injection h with h
      exact h ▸ hf a st s1 (by rw [hfa]; rfl)

/-- C4 helper: `extractTarball` adds only verified events — a cache write
happens only inside the hash-match branch with the just-verified bytes, and
the extraction reads the cache file whose content at that instant is those
same verified bytes. -/
theorem extractTarball_events (env : InstEnv) (graph : DependencyGraph)
    (pid : Str) (info : PackageInfo) (path : Str) (tarData : Bytes)
    (cached : Bool) (st st' : InstState)
    (hinfo : alookup graph pid = some info)
    (hcached : cached = true → alookup st.cache path = some tarData)
    (hres : resState (extractTarball env pid info path tarData cached st) =
      some st')
    (hev : ∀ ev ∈ st.events, VerifiedEvent env.hashFn graph ev) :
    ∀ ev ∈ st'.events, VerifiedEvent env.hashFn graph ev := by
  cases cached with
  | true =>
    have hcc := hcached rfl
    simp only [extractTarball, if_true] at hres
    split at hres
    · rename_i hmatch
      rw [hcc] at hres
      simp only [Option.getD] at hres
      split at hres
      · simp only [resState] at hres
        injection hres with hres
        subst hres
        intro ev hev'
        rcases List.mem_append.mp hev' with h | h
        · exact hev ev h
        · rcases List.mem_singleton.mp h with rfl
          exact ⟨info, hinfo, hmatch⟩
      · simp only [resState] at hres
        injection hres with hres
        subst hres
        exact hev
    · rw [hcc] at hres
      simp only [resState] at hres
      injection hres with hres
      subst hres
      intro ev hev'
      rcases List.mem_append.mp hev' with h | h
      · exact hev ev h
      · rcases List.mem_singleton.mp h with rfl
        trivial
  | false =>
    simp only [extractTarball, Bool.false_eq_true, if_false] at hres
    split at hres
    · rename_i hmatch
      rw [alookup_aupsert_self] at hres
      simp only [Option.getD] at hres
      split at hres
      · simp only [resState] at hres
        injection hres with hres
        subst hres
        intro ev hev'
        rcases List.mem_append.mp hev' with h | h
        · rcases List.mem_append.mp h with h2 | h2
          · exact hev ev h2
          · rcases List.mem_singleton.mp h2 with rfl
            exact ⟨info, hinfo, hmatch⟩
        · rcases List.mem_singleton.mp h with rfl
          exact ⟨info, hinfo, hmatch⟩
      · simp only [resState] at hres
        injection hres with hres
        subst hres
        intro ev hev'
        rcases List.mem_append.mp hev' with h | h
        · exact hev ev h
        · rcases List.mem_singleton.mp h with rfl
          exact ⟨info, hinfo, hmatch⟩
    · split at hres
      · simp only [resState] at hres
        injection hres with hres
        subst hres
        intro ev hev'
        rcases List.mem_append.mp hev' with h | h
        · exact hev ev h
        · rcases List.mem_singleton.mp h with rfl
          trivial
      · simp only [resState] at hres
        injection hres with hres
        subst hres
        exact hev

/-- C4 helper: the three possible outcomes of `retrieveTarball` — cache
read, download, or transport failure — with the state each produces. -/
theorem retrieveTarball_spec (env : InstEnv) (pid : Str) (info : PackageInfo)
    (path : Str) (st : InstState) :
    (∃ data, alookup st.cache path = some data ∧
      retrieveTarball env pid info path st =
        (some (data, true),
          { st with events := st.events ++ [.cacheRead pid path] })) ∨
    (alookup st.cache path = none ∧
      ∃ data, env.net info.tarballUrl = some data ∧
        retrieveTarball env pid info path st =
          (some (data, false),
            { st with events := st.events ++
              [.download pid info.tarballUrl] })) ∨
    (alookup st.cache path = none ∧ env.net info.tarballUrl = none ∧
      retrieveTarball env pid info path st = (none, st)) := by
  unfold retrieveTarball
  cases h1 : alookup st.cache path with
  | some data => exact .inl ⟨data, rfl, rfl⟩
  | none =>
    cases h2 : env.net info.tarballUrl with
    | some data => exact .inr (.inl ⟨rfl, data, rfl, rfl⟩)
    | none => exact .inr (.inr ⟨rfl, rfl, rfl⟩)

/-- C4 helper: `installPackage` preserves the all-events-verified
invariant, whether the call succeeds or aborts with an error. -/
theorem installPackage_events (env : InstEnv) (graph : DependencyGraph) :
    ∀ (fuel : Nat) (pid : Str) (st st' : InstState),
      resState (installPackage env fuel pid graph st) = some st' →
      (∀ ev ∈ st.events, VerifiedEvent env.hashFn graph ev) →
      ∀ ev ∈ st'.events, VerifiedEvent env.hashFn graph ev := by
  intro fuel
  induction fuel with
  | zero =>
    intro pid st st' hres hev
    exact absurd hres (by simp [installPackage, resState])
  | succ fuel ih =>
    intro pid st st' hres hev
    simp only [installPackage] at hres
    by_cases hmem : pid ∈ st.installed
    · rw [if_pos hmem] at hres
      simp only [resState] at hres
      injection hres with hres
      subst hres
      exact hev
    · rw [if_neg hmem] at hres
      cases hg : alookup graph pid with
      | none =>
        rw [hg] at hres
        simp only [resState] at hres
        injection hres with hres
        subst hres
        exact hev
      | some info =>
        rw [hg] at hres
        simp only [] at hres
        cases hfold : instFold (fun dep st1 => installPackage env fuel dep graph st1)
            info.dependencies (.ok st) with
        | out =>
          rw [hfold] at hres
          exact absurd hres (by simp [resState])
        | fail e st1 =>
          rw [hfold] at hres
          simp only [resState] at hres
          injection hres with hres
          exact hres ▸ (instFold_rel
            (fun dep st1 => installPackage env fuel dep graph st1)
            (fun a b => (∀ ev ∈ a.events, VerifiedEvent env.hashFn graph ev) →
              (∀ ev ∈ b.events, VerifiedEvent env.hashFn graph ev))
            (fun _ h => h) (fun hab hbc h => hbc (hab h))
            (fun d s s' hr => ih d s s' hr)
            info.dependencies st st1 (by rw [hfold]; rfl) hev)
        | ok st1 =>
          rw [hfold] at hres
          simp only [] at hres
          have hev1 : ∀ ev ∈ st1.events, VerifiedEvent env.hashFn graph ev :=
            instFold_rel
              (fun dep st1 => installPackage env fuel dep graph st1)
              (fun a b => (∀ ev ∈ a.events, VerifiedEvent env.hashFn graph ev) →
                (∀ ev ∈ b.events, VerifiedEvent env.hashFn graph ev))
              (fun _ h => h) (fun hab hbc h => hbc (hab h))
              (fun d s s' hr => ih d s s' hr)
              info.dependencies st st1 (by rw [hfold]; rfl) hev
          rcases retrieveTarball_spec env pid info
              (replaceFirst (parsePackageIdentifier pid).1 '/' '-' ++
                '-' :: info.version ++ str ".tgz") st1 with
            ⟨data, hcc, hret⟩ | ⟨hcc, data, hnet, hret⟩ | ⟨hcc, hnet, hret⟩
          · rw [hret] at hres
            simp only [] at hres
            have hev2 : ∀ ev ∈ (st1.events ++
                [Event.cacheRead pid (replaceFirst (parsePackageIdentifier pid).1 '/' '-' ++
                  '-' :: info.version ++ str ".tgz")]), VerifiedEvent env.hashFn graph ev := by
              intro ev hev'
              rcases List.mem_append.mp hev' with h | h
              · exact hev1 ev h
              · rcases List.mem_singleton.mp h with rfl
                trivial
            split at hres
            · rename_i st3 hext
              simp only [resState] at hres
              injection hres with hres
              subst hres
              exact extractTarball_events env graph pid info
                (replaceFirst (parsePackageIdentifier pid).1 '/' '-' ++
                  '-' :: info.version ++ str ".tgz") data true
                { st1 with events := st1.events ++ [Event.cacheRead pid
                  (replaceFirst (parsePackageIdentifier pid).1 '/' '-' ++
                    '-' :: info.version ++ str ".tgz")] } st3
                hg (fun _ => hcc) (by rw [hext]; rfl) hev2
            · rename_i e st3 hext
              simp only [resState] at hres
              injection hres with hres
              exact hres ▸ extractTarball_events env graph pid info
                (replaceFirst (parsePackageIdentifier pid).1 '/' '-' ++
                  '-' :: info.version ++ str ".tgz") data true
                { st1 with events := st1.events ++ [Event.cacheRead pid
                  (replaceFirst (parsePackageIdentifier pid).1 '/' '-' ++
                    '-' :: info.version ++ str ".tgz")] } st3
                hg (fun _ => hcc) (by rw [hext]; rfl) hev2
            · exact absurd hres (by simp [resState])
          · rw [hret] at hres
            simp only [] at hres
            have hev2 : ∀ ev ∈ (st1.events ++ [Event.download pid info.tarballUrl]),
                VerifiedEvent env.hashFn graph ev := by
              intro ev hev'
              rcases List.mem_append.mp hev' with h | h
              · exact hev1 ev h
              · rcases List.mem_singleton.mp h with rfl
                trivial
            split at hres
            · rename_i st3 hext
              simp only [resState] at hres
              injection hres with hres
              subst hres
              exact extractTarball_events env graph pid info
                (replaceFirst (parsePackageIdentifier pid).1 '/' '-' ++
                  '-' :: info.version ++ str ".tgz") data false
                { st1 with events := st1.events ++
                  [Event.download pid info.tarballUrl] } st3
                hg (fun h => absurd h (by simp)) (by rw [hext]; rfl) hev2
            · rename_i e st3 hext
              simp only [resState] at hres
              injection hres with hres
              exact hres ▸ extractTarball_events env graph pid info
                (replaceFirst (parsePackageIdentifier pid).1 '/' '-' ++
                  '-' :: info.version ++ str ".tgz") data false
                { st1 with events := st1.events ++
                  [Event.download pid info.tarballUrl] } st3
                hg (fun h => absurd h (by simp)) (by rw [hext]; rfl) hev2
            · exact absurd hres (by simp [resState])
          · rw [hret] at hres
            simp only [resState] at hres
            injection hres with hres
            subst hres
            exact hev1

/-- C4: in every install run (successful or aborting), tarball bytes are
written to the on-disk cache, and contents are extracted into the package
directory, only with bytes whose hash has been verified against the
integrity string recorded in the corresponding graph node: starting from a
state whose event log satisfies that invariant, every state the run can end
in satisfies it too — no write of unverified bytes is reachable. -/
theorem installer_writes_only_verified (env : InstEnv) (fuel : Nat)
    (graph : DependencyGraph) (st st' : InstState)
    (hres : resState (installFromGraph env fuel graph st) = some st')
    (hev : ∀ ev ∈ st.events, VerifiedEvent env.hashFn graph ev) :
    ∀ ev ∈ st'.events, VerifiedEvent env.hashFn graph ev := by
  simp only [installFromGraph] at hres
  exact instFold_rel
    (fun packageIdentifier st1 => installPackage env fuel packageIdentifier graph st1)
    (fun a b => (∀ ev ∈ a.events, VerifiedEvent env.hashFn graph ev) →
      (∀ ev ∈ b.events, VerifiedEvent env.hashFn graph ev))
    (fun _ h => h) (fun hab hbc h => hbc (hab h))
    (fun d s s' hr => installPackage_events env graph fuel d s s' hr)
    (graph.map Prod.fst) st st' hres hev

/-- A one-node graph and an environment under which its integrity check
passes, for exercising the verified-writes theorem end to end. -/
def graphOkOne : DependencyGraph :=
  [(str "p@1.0.0", ⟨str "1.0.0", str "urlP", str "sha512-h", true, []⟩)]

/-- Environment whose hash function returns `"h"` for all input, matching
`graphOkOne`'s integrity string. -/
def envOkOne : InstEnv :=
  ⟨fun _ _ => str "h", fun _ => some [1], fun _ => true⟩

/-- C4 witness: the cold one-package install run downloads, caches, and
extracts, and every cache-write/extract event in the final log carries
verified bytes. -/
theorem installer_writes_only_verified_witness :
    resState (installFromGraph envOkOne 1 graphOkOne ⟨[], [], []⟩) =
      some ⟨[(str "p-1.0.0.tgz", [1])], [str "p@1.0.0"],
        [.download (str "p@1.0.0") (str "urlP"),
         .cacheWrite (str "p@1.0.0") (str "p-1.0.0.tgz") [1],
         .extract (str "p@1.0.0") [1]]⟩ ∧
    (∀ ev ∈ (⟨[], [], []⟩ : InstState).events,
      VerifiedEvent envOkOne.hashFn graphOkOne ev) ∧
    (∀ ev ∈ (⟨[(str "p-1.0.0.tgz", [1])], [str "p@1.0.0"],
        [.download (str "p@1.0.0") (str "urlP"),
         .cacheWrite (str "p@1.0.0") (str "p-1.0.0.tgz") [1],
         .extract (str "p@1.0.0") [1]]⟩ : InstState).events,
      VerifiedEvent envOkOne.hashFn graphOkOne ev) := by
  refine ⟨by decide, fun ev hh => absurd hh (List.not_mem_nil ev), ?_⟩
  exact installer_writes_only_verified envOkOne 1 graphOkOne ⟨[], [], []⟩
    ⟨[(str "p-1.0.0.tgz", [1])], [str "p@1.0.0"],
      [.download (str "p@1.0.0") (str "urlP"),
       .cacheWrite (str "p@1.0.0") (str "p-1.0.0.tgz") [1],
       .extract (str "p@1.0.0") [1]]⟩ (by decide)
    (fun ev hh => absurd hh (List.not_mem_nil ev))

/-! C7: the lock file is written only after a fully successful fresh run. -/

/-- The event kinds the installer itself can emit (cleanup and lock-write
events come only from the orchestrator). -/
def InstallerEvent : Event → Prop
  | .cleanup => False
  | .writeLock _ => False
  | _ => True

/-- Frame of an installer call: the installed set only grows, and the event
log is extended with installer-kind events only. -/
def Frame (a b : InstState) : Prop :=
  (∀ x ∈ a.installed, x ∈ b.installed) ∧
  ∃ new, b.events = a.events ++ new ∧ ∀ ev ∈ new, InstallerEvent ev

theorem frame_refl (s : InstState) : Frame s s :=
  ⟨fun _ h => h, ⟨[], by simp, fun ev h => absurd h (List.not_mem_nil ev)⟩⟩

theorem frame_trans {a b c : InstState} (h1 : Frame a b) (h2 : Frame b c) :
    Frame a c := by
  refine ⟨fun x hx => h2.1 x (h1.1 x hx), ?_⟩
  obtain ⟨n1, heq1, hins1⟩ := h1.2
  obtain ⟨n2, heq2, hins2⟩ := h2.2
  refine ⟨n1 ++ n2, ?_, ?_⟩
  · rw [heq2, heq1, List.append_assoc]
  · intro ev hev
    rcases List.mem_append.mp hev with h | h
    exacts [hins1 ev h, hins2 ev h]

/-- C7 helper: `extractTarball` only appends installer-kind events and
never touches the installed set. -/
theorem extractTarball_frame (env : InstEnv) (pid : Str) (info : PackageInfo)
    (path : Str) (tarData : Bytes) (cached : Bool) (st st' : InstState)
    (hres : resState (extractTarball env pid info path tarData cached st) =
      some st') :
    Frame st st' := by
  cases cached with
  | true =>
    simp only [extractTarball, if_true] at hres
    split at hres
    · split at hres
      · simp only [resState] at hres
        injection hres with hres
        subst hres
        exact ⟨fun _ h => h,
          ⟨_, rfl, fun ev h => by rcases List.mem_singleton.mp h with rfl; trivial⟩⟩
      · simp only [resState] at hres
        injection hres with hres
        subst hres
        exact frame_refl st
    · split at hres
      · simp only [resState] at hres
        injection hres with hres
        subst hres
        exact ⟨fun _ h => h,
          ⟨_, rfl, fun ev h => by rcases List.mem_singleton.mp h with rfl; trivial⟩⟩
      · simp only [resState] at hres
        injection hres with hres
        subst hres
        exact frame_refl st
  | false =>
    simp only [extractTarball, Bool.false_eq_true, if_false] at hres
    split at hres
    · split at hres
      · simp only [resState] at hres
        injection hres with hres
        subst hres
        refine ⟨fun _ h => h, ⟨[Event.cacheWrite pid path tarData] ++ [Event.extract pid
          ((alookup (aupsert st.cache path tarData) path).getD [])], ?_, ?_⟩⟩
        · exact List.append_assoc st.events _ _
        · intro ev h
          rcases List.mem_append.mp h with h | h <;>
            rcases List.mem_singleton.mp h with rfl <;> trivial
      · simp only [resState] at hres
        injection hres with hres
        subst hres
        exact ⟨fun _ h => h,
          ⟨_, rfl, fun ev h => by rcases List.mem_singleton.mp h with rfl; trivial⟩⟩
    · split at hres
      · simp only [resState] at hres
        injection hres with hres
        subst hres
        exact ⟨fun _ h => h,
          ⟨_, rfl, fun ev h => by rcases List.mem_singleton.mp h with rfl; trivial⟩⟩
      · simp only [resState] at hres
        injection hres with hres
        subst hres
        exact frame_refl st

/-- C7 helper: `installPackage` satisfies the installer frame — the
installed set only grows and the event log is extended with installer-kind
events only, on success and on failure alike. -/
theorem installPackage_frame (env : InstEnv) (graph : DependencyGraph) :
    ∀ (fuel : Nat) (pid : Str) (st st' : InstState),
      resState (installPackage env fuel pid graph st) = some st' →
      Frame st st' := by
  intro fuel
  induction fuel with
  | zero =>
    intro pid st st' hres
    exact absurd hres (by simp [installPackage, resState])
  | succ fuel ih =>
    intro pid st st' hres
    simp only [installPackage] at hres
    by_cases hmem : pid ∈ st.installed
    · rw [if_pos hmem] at hres
      simp only [resState] at hres
      injection hres with hres
      subst hres
      exact frame_refl st
    · rw [if_neg hmem] at hres
      cases hg : alookup graph pid with
      | none =>
        rw [hg] at hres
        simp only [resState] at hres
        injection hres with hres
        subst hres
        exact frame_refl st
      | some info =>
        rw [hg] at hres
        simp only [] at hres
        cases hfold : instFold (fun dep st1 => installPackage env fuel dep graph st1)
            info.dependencies (.ok st) with
        | out =>
          rw [hfold] at hres
          exact absurd hres (by simp [resState])
        | fail e st1 =>
          rw [hfold] at hres
          simp only [resState] at hres
          injection hres with hres
          exact hres ▸ instFold_rel
            (fun dep st1 => installPackage env fuel dep graph st1) Frame
            frame_refl (fun h1 h2 => frame_trans h1 h2)
            (fun d s s' hr => ih d s s' hr)
            info.dependencies st st1 (by rw [hfold]; rfl)
        | ok st1 =>
          rw [hfold] at hres
          simp only [] at hres
          have hfr1 : Frame st st1 :=
            instFold_rel
              (fun dep st1 => installPackage env fuel dep graph st1) Frame
              frame_refl (fun h1 h2 => frame_trans h1 h2)
              (fun d s s' hr => ih d s s' hr)
              info.dependencies st st1 (by rw [hfold]; rfl)
          rcases retrieveTarball_spec env pid info
              (replaceFirst (parsePackageIdentifier pid).1 '/' '-' ++
                '-' :: info.version ++ str ".tgz") st1 with
            ⟨data, hcc, hret⟩ | ⟨hcc, data, hnet, hret⟩ | ⟨hcc, hnet, hret⟩
          · rw [hret] at hres
            simp only [] at hres
            have hfr2 : Frame st1 { st1 with events := st1.events ++
                [Event.cacheRead pid (replaceFirst (parsePackageIdentifier pid).1 '/' '-' ++
                  '-' :: info.version ++ str ".tgz")] } :=
              ⟨fun _ h => h, ⟨_, rfl,
                fun ev h => by rcases List.mem_singleton.mp h with rfl; trivial⟩⟩
            split at hres
            · rename_i st3 hext
              simp only [resState] at hres
              injection hres with hres
              subst hres
              have hfr3 := extractTarball_frame env pid info _ data true _ st3
                (by rw [hext]; rfl)
              have hfr4 : Frame st3 { st3 with installed := pid :: st3.installed } :=
                ⟨fun x h => List.mem_cons_of_mem pid h,
                  ⟨[], by simp, fun ev h => absurd h (List.not_mem_nil ev)⟩⟩
              exact frame_trans hfr1 (frame_trans hfr2 (frame_trans hfr3 hfr4))
            · rename_i e st3 hext
              simp only [resState] at hres
              injection hres with hres
              have hfr3 := extractTarball_frame env pid info _ data true _ st3
                (by rw [hext]; rfl)
              exact hres ▸ frame_trans hfr1 (frame_trans hfr2 hfr3)
            · exact absurd hres (by simp [resState])
          · rw [hret] at hres
            simp only [] at hres
            have hfr2 : Frame st1 { st1 with events := st1.events ++
                [Event.download pid info.tarballUrl] } :=
              ⟨fun _ h => h, ⟨_, rfl,
                fun ev h => by rcases List.mem_singleton.mp h with rfl; trivial⟩⟩
            split at hres
            · rename_i st3 hext
              simp only [resState] at hres
              injection hres with hres
              subst hres
              have hfr3 := extractTarball_frame env pid info _ data false _ st3
                (by rw [hext]; rfl)
              have hfr4 : Frame st3 { st3 with installed := pid :: st3.installed } :=
                ⟨fun x h => List.mem_cons_of_mem pid h,
                  ⟨[], by simp, fun ev h => absurd h (List.not_mem_nil ev)⟩⟩
              exact frame_trans hfr1 (frame_trans hfr2 (frame_trans hfr3 hfr4))
            · rename_i e st3 hext
              simp only [resState] at hres
              injection hres with hres
              have hfr3 := extractTarball_frame env pid info _ data false _ st3
                (by rw [hext]; rfl)
              exact hres ▸ frame_trans hfr1 (frame_trans hfr2 hfr3)
            · exact absurd hres (by simp [resState])
          · rw [hret] at hres
            simp only [resState] at hres
            injection hres with hres
            exact hres ▸ hfr1

/-- C7 helper: a successful `installPackage` call records its identifier in
the installed set (either it was there already, or the final step adds it). -/
theorem installPackage_ok_installed (env : InstEnv) (graph : DependencyGraph)
    (fuel : Nat) (pid : Str) (st st' : InstState)
    (h : installPackage env fuel pid graph st = .ok st') :
    pid ∈ st'.installed := by
  cases fuel with
  | zero => exact absurd h (fun hh => InstRes.noConfusion hh)
  | succ fuel =>
    simp only [installPackage] at h
    by_cases hmem : pid ∈ st.installed
    · rw [if_pos hmem] at h
      injection h with h
      exact h ▸ hmem
    · rw [if_neg hmem] at h
      cases hg : alookup graph pid with
      | none =>
        rw [hg] at h
        exact absurd h (fun hh => InstRes.noConfusion hh)
      | some info =>
        rw [hg] at h
        simp only [] at h
        cases hfold : instFold (fun dep st1 => installPackage env fuel dep graph st1)
            info.dependencies (.ok st) with
        | out =>
          rw [hfold] at h
          exact absurd h (fun hh => InstRes.noConfusion hh)
        | fail e st1 =>
          rw [hfold] at h
          exact absurd h (fun hh => InstRes.noConfusion hh)
        | ok st1 =>
          rw [hfold] at h
          simp only [] at h
          rcases retrieveTarball_spec env pid info
              (replaceFirst (parsePackageIdentifier pid).1 '/' '-' ++
                '-' :: info.version ++ str ".tgz") st1 with
            ⟨data, hcc, hret⟩ | ⟨hcc, data, hnet, hret⟩ | ⟨hcc, hnet, hret⟩
          · rw [hret] at h
            simp only [] at h
            split at h
            · rename_i st3 hext
              injection h with h
              exact h ▸ List.mem_cons_self pid st3.installed
            · rename_i e st3 hext
              exact absurd h (fun hh => InstRes.noConfusion hh)
            · exact absurd h (fun hh => InstRes.noConfusion hh)
          · rw [hret] at h
            simp only [] at h
            split at h
            · rename_i st3 hext
              injection h with h
              exact h ▸ List.mem_cons_self pid st3.installed
            · rename_i e st3 hext
              exact absurd h (fun hh => InstRes.noConfusion hh)
            · exact absurd h (fun hh => InstRes.noConfusion hh)
          · rw [hret] at h
            exact absurd h (fun hh => InstRes.noConfusion hh)

/-- C7 helper: the frame of a whole `installFromGraph` run. -/
theorem installFromGraph_frame (env : InstEnv) (fuel : Nat)
    (graph : DependencyGraph) (st st' : InstState)
    (hres : resState (installFromGraph env fuel graph st) = some st') :
    Frame st st' := by
  simp only [installFromGraph] at hres
  exact instFold_rel
    (fun packageIdentifier st1 => installPackage env fuel packageIdentifier graph st1)
    Frame frame_refl (fun h1 h2 => frame_trans h1 h2)
    (fun d s s' hr => installPackage_frame env graph fuel d s s' hr)
    (graph.map Prod.fst) st st' hres

/-- C7 helper: a successful fold over a key list installs every key. -/
theorem instFold_all_installed (env : InstEnv) (fuel : Nat)
    (graph : DependencyGraph) :
    ∀ (l : List Str) (st st' : InstState),
      instFold (fun packageIdentifier st1 =>
        installPackage env fuel packageIdentifier graph st1) l (.ok st) = .ok st' →
      ∀ k ∈ l, k ∈ st'.installed := by
  intro l
  induction l with
  | nil => intro st st' _ k hk; exact absurd hk (List.not_mem_nil k)
  | cons a t ih =>
    intro st st' h k hk
    simp only [instFold] at h
    cases hfa : installPackage env fuel a graph st with
    | out =>
      rw [hfa, instFold_not_ok _ _ _ (fun s hh => InstRes.noConfusion hh)] at h
      exact absurd h (fun hh => InstRes.noConfusion hh)
    | fail e s1 =>
      rw [hfa, instFold_not_ok _ _ _ (fun s hh => InstRes.noConfusion hh)] at h
      exact absurd h (fun hh => InstRes.noConfusion hh)
    | ok s1 =>
      rw [hfa] at h
      rcases List.mem_cons.mp hk with rfl | hk'
      · have h1 : k ∈ s1.installed :=
          installPackage_ok_installed env graph fuel k st s1 hfa
        have hfr : Frame s1 st' := instFold_rel
          (fun packageIdentifier st1 =>
            installPackage env fuel packageIdentifier graph st1)
          Frame frame_refl (fun h1 h2 => frame_trans h1 h2)
          (fun d s s' hr => installPackage_frame env graph fuel d s s' hr)
          t s1 st' (by rw [h]; rfl)
        exact hfr.1 k h1
      · exact ih s1 st' h k hk'

/-- C7 helper: a successful `installFromGraph` run installs every key of
the graph. -/
theorem installFromGraph_ok_all_installed (env : InstEnv) (fuel : Nat)
    (graph : DependencyGraph) (st st' : InstState)
    (h : installFromGraph env fuel graph st = .ok st') :
    ∀ k ∈ graph.map Prod.fst, k ∈ st'.installed := by
  simp only [installFromGraph] at h
  exact instFold_all_installed env fuel graph (graph.map Prod.fst) st st' h

/-- C7 helper: in the fresh-build branch, a failing run leaves no lock-write
event, and a successful run ends with cleanup followed by exactly one
lock-write event for the freshly built graph, every node of which has been
installed. -/
theorem freshInstall_spec (env : InstEnv) (resolve : Str → Str → Option Str)
    (reg : Registry) (fuel : Nat) (deps : List (Str × Str)) (st : InstState)
    (hclean : ∀ g : DependencyGraph, Event.writeLock g ∉ st.events) :
    (∀ e st', freshInstall env resolve reg fuel deps st = .fail e st' →
      ∀ g, Event.writeLock g ∉ st'.events) ∧
    (∀ st' g, freshInstall env resolve reg fuel deps st = .ok st' →
      Event.writeLock g ∈ st'.events →
      (∃ pre, st'.events = pre ++ [Event.cleanup, Event.writeLock g]) ∧
      ∀ k ∈ g.map Prod.fst, k ∈ st'.installed) := by
  unfold freshInstall
  cases hb : buildFullGraph resolve reg fuel deps with
  | out =>
    exact ⟨fun e st' h => absurd h (fun hh => InstRes.noConfusion hh),
      fun st' g h => absurd h (fun hh => InstRes.noConfusion hh)⟩
  | err id =>
    constructor
    · intro e st' h g
      injection h with h1 h2
      exact h2 ▸ hclean g
    · intro st' g h
      exact absurd h (fun hh => InstRes.noConfusion hh)
  | ok fullGraph =>
    simp only []
    cases hi : installFromGraph env fuel fullGraph st with
    | out =>
      exact ⟨fun e st' h => absurd h (fun hh => InstRes.noConfusion hh),
        fun st' g h => absurd h (fun hh => InstRes.noConfusion hh)⟩
    | fail e1 st1 =>
      constructor
      · intro e st' h g
        injection h with h1 h2
        have hfr := installFromGraph_frame env fuel fullGraph st st1 (by rw [hi]; rfl)
        obtain ⟨new, hnew, hins⟩ := hfr.2
        intro hmem
        rw [← h2, hnew] at hmem
        rcases List.mem_append.mp hmem with hx | hx
        · exact hclean g hx
        · exact hins _ hx
      · intro st' g h
        exact absurd h (fun hh => InstRes.noConfusion hh)
    | ok st1 =>
      constructor
      · intro e st' h g
        exact absurd h (fun hh => InstRes.noConfusion hh)
      · intro st' g h hmem
        injection h with h
        subst h
        have hfr := installFromGraph_frame env fuel fullGraph st st1 (by rw [hi]; rfl)
        obtain ⟨new, hnew, hins⟩ := hfr.2
        have hnolock : ∀ g' : DependencyGraph, Event.writeLock g' ∉ st1.events := by
          intro g' hx
          rw [hnew] at hx
          rcases List.mem_append.mp hx with hx | hx
          · exact hclean g' hx
          · exact hins _ hx
        have hg : g = fullGraph := by
          have hmem' : Event.writeLock g ∈
              (st1.events ++ [Event.cleanup]) ++ [Event.writeLock fullGraph] := hmem
          rcases List.mem_append.mp hmem' with hx | hx
          · rcases List.mem_append.mp hx with hy | hy
            · exact absurd hy (hnolock g)
            · exact Event.noConfusion (List.mem_singleton.mp hy)
          · have h' := List.mem_singleton.mp hx
            injection h' with h'
        subst hg
        constructor
        · exact ⟨st1.events, List.append_assoc _ _ _⟩
        · intro k hk
          exact installFromGraph_ok_all_installed env fuel _ st st1 hi k hk

/-- C7: in every orchestrated install run, the lock file is written only
after every node of the freshly built graph has been successfully installed
and after cleanup (the final events are exactly cleanup followed by the
single lock write for the built graph); every failing run leaves no
lock-write event; and the unchanged-dependencies path (install from lock)
performs no lock write. -/
theorem lockfile_written_only_after_success (env : InstEnv)
    (satisfies : Str → Str → Bool) (resolve : Str → Str → Option Str)
    (reg : Registry) (fuel : Nat) (deps : List (Str × Str))
    (lockGraph : Option DependencyGraph) (st : InstState)
    (hclean : ∀ g : DependencyGraph, Event.writeLock g ∉ st.events) :
    (∀ e st',
      determinePackageInstallation env satisfies resolve reg fuel deps
        lockGraph st = .fail e st' →
      ∀ g, Event.writeLock g ∉ st'.events) ∧
    (∀ L st', lockGraph = some L →
      didDependenciesChange satisfies deps L = false →
      determinePackageInstallation env satisfies resolve reg fuel deps
        lockGraph st = .ok st' →
      ∀ g, Event.writeLock g ∉ st'.events) ∧
    (∀ st' g,
      determinePackageInstallation env satisfies resolve reg fuel deps
        lockGraph st = .ok st' →
      Event.writeLock g ∈ st'.events →
      (∃ pre, st'.events = pre ++ [Event.cleanup, Event.writeLock g]) ∧
      ∀ k ∈ g.map Prod.fst, k ∈ st'.installed) := by
  unfold determinePackageInstallation
  cases lockGraph with
  | none =>
    refine ⟨(freshInstall_spec env resolve reg fuel deps st hclean).1, ?_,
      (freshInstall_spec env resolve reg fuel deps st hclean).2⟩
    intro L st' hL
    exact absurd hL (fun hh => Option.noConfusion hh)
  | some L =>
    simp only []
    by_cases hch : didDependenciesChange satisfies deps L = true
    · rw [if_pos hch]
      refine ⟨(freshInstall_spec env resolve reg fuel deps st hclean).1, ?_,
        (freshInstall_spec env resolve reg fuel deps st hclean).2⟩
      intro L' st' hL hnc
      injection hL with hL
      subst hL
      rw [hch] at hnc
      exact absurd hnc (by simp)
    · rw [if_neg hch]
      cases hi : installFromGraph env fuel L st with
      | out =>
        refine ⟨?_, ?_, ?_⟩
        · intro e st' h g
          exact absurd h (fun hh => InstRes.noConfusion hh)
        · intro L' st' hL hnc h g
          exact absurd h (fun hh => InstRes.noConfusion hh)
        · intro st' g h hmem
          exact absurd h (fun hh => InstRes.noConfusion hh)
      | fail e1 st1 =>
        refine ⟨?_, ?_, ?_⟩
        · intro e st' h g
          injection h with h1 h2
          have hfr := installFromGraph_frame env fuel L st st1 (by rw [hi]; rfl)
          obtain ⟨new, hnew, hins⟩ := hfr.2
          intro hmem
          rw [← h2, hnew] at hmem
          rcases List.mem_append.mp hmem with hx | hx
          · exact hclean g hx
          · exact hins _ hx
        · intro L' st' hL hnc h g
          exact absurd h (fun hh => InstRes.noConfusion hh)
        · intro st' g h hmem
          exact absurd h (fun hh => InstRes.noConfusion hh)
      | ok st1 =>
        have hnolock : ∀ g' : DependencyGraph,
            Event.writeLock g' ∉ (cleanupUnusedPackages st1).events := by
          intro g' hx
          have hfr := installFromGraph_frame env fuel L st st1 (by rw [hi]; rfl)
          obtain ⟨new, hnew, hins⟩ := hfr.2
          have hx' : Event.writeLock g' ∈ st1.events ++ [Event.cleanup] := hx
          rcases List.mem_append.mp hx' with hy | hy
          · rw [hnew] at hy
            rcases List.mem_append.mp hy with hz | hz
            · exact hclean g' hz
            · exact hins _ hz
          · exact Event.noConfusion (List.mem_singleton.mp hy)
        refine ⟨?_, ?_, ?_⟩
        · intro e st' h g
          exact absurd h (fun hh => InstRes.noConfusion hh)
        · intro L' st' hL hnc h g
          injection h with h
          exact h ▸ hnolock g
        · intro st' g h hmem
          injection h with h
          exact absurd (h ▸ hmem) (hnolock g)

/-- Registry with the single package `p@1.0.0`, no dependencies. -/
def regOne : Registry := fun n v =>
  if n = str "p" ∧ v = str "1.0.0" then
    some ⟨str "1.0.0", str "urlP", str "sha512-h", false, []⟩
  else none

/-- C7 witness: a concrete cold install run (no lock file, one package):
the run succeeds with the lock-write event last, right after cleanup, and
the theorem's guarantees hold at this input. -/
theorem lockfile_written_only_after_success_witness :
    determinePackageInstallation envOkOne (fun _ _ => true) (fun _ r => some r)
        regOne 2 [(str "p", str "1.0.0")] none ⟨[], [], []⟩ =
      .ok ⟨[(str "p-1.0.0.tgz", [1])], [str "p@1.0.0"],
        [.download (str "p@1.0.0") (str "urlP"),
         .cacheWrite (str "p@1.0.0") (str "p-1.0.0.tgz") [1],
         .extract (str "p@1.0.0") [1], .cleanup,
         .writeLock [(str "p@1.0.0",
           ⟨str "1.0.0", str "urlP", str "sha512-h", true, []⟩)]]⟩ ∧
    (∀ g : DependencyGraph,
      Event.writeLock g ∉ (⟨[], [], []⟩ : InstState).events) ∧
    ((∀ e st',
      determinePackageInstallation envOkOne (fun _ _ => true) (fun _ r => some r)
        regOne 2 [(str "p", str "1.0.0")] none ⟨[], [], []⟩ = .fail e st' →
      ∀ g, Event.writeLock g ∉ st'.events) ∧
    (∀ L st', (none : Option DependencyGraph) = some L →
      didDependenciesChange (fun _ _ => true) [(str "p", str "1.0.0")] L = false →
      determinePackageInstallation envOkOne (fun _ _ => true) (fun _ r => some r)
        regOne 2 [(str "p", str "1.0.0")] none ⟨[], [], []⟩ = .ok st' →
      ∀ g, Event.writeLock g ∉ st'.events) ∧
    (∀ st' g,
      determinePackageInstallation envOkOne (fun _ _ => true) (fun _ r => some r)
        regOne 2 [(str "p", str "1.0.0")] none ⟨[], [], []⟩ = .ok st' →
      Event.writeLock g ∈ st'.events →
      (∃ pre, st'.events = pre ++ [Event.cleanup, Event.writeLock g]) ∧
      ∀ k ∈ g.map Prod.fst, k ∈ st'.installed)) :=
  ⟨by decide,
   fun g h => absurd h (List.not_mem_nil _),
   lockfile_written_only_after_success envOkOne (fun _ _ => true)
     (fun _ r => some r) regOne 2 [(str "p", str "1.0.0")] none ⟨[], [], []⟩
     (fun g h => absurd h (List.not_mem_nil _))⟩

/-! C10: object identity between the metadata LRU cache and the dependency
graph (heap-based embedding of `part_007`'s `buildDependencyGraph` and
`getPackageInfo`'s cache layer). JavaScript objects live on a heap indexed
by allocation order; the LRU cache (`packageInfoCache`) and the dependency
graph both store references. LRU eviction (capacity 500) is not modelled;
it is irrelevant to the aliasing behaviour under scrutiny. -/

/-- Heap-level state: the object store, the `packageInfoCache` mapping
identifiers to references, and the dependency graph mapping identifiers to
references. -/
structure HState where
  heap : List PackageInfo
  infoCache : List (Str × Nat)
  graph : List (Str × Nat)
deriving DecidableEq

/-- From `src/src/utils.ts` (`getPackageInfo`), cache layer: a hit returns
the cached reference (the very object); a miss allocates the fetched
`PackageInfo` (with `isDirectDependency` defaulted to `false` by the
registry model) and caches the reference. `none` models a fetch throw. -/
def getPackageInfoH (reg : Registry) (packageName exactVersion : Str)
    (s : HState) : Option (Nat × HState) :=
  let packageIdentifier := mkId packageName exactVersion
  match alookup s.infoCache packageIdentifier with
  | some r => some (r, s)
  | none =>
    match reg packageName exactVersion with
    | none => none
    | some packageInfo =>
      some (s.heap.length,
        ⟨s.heap ++ [packageInfo],
         s.infoCache ++ [(packageIdentifier, s.heap.length)],
         s.graph⟩)

/-- Option-threaded loop for the heap-level dependency recursion. -/
def hFold {α : Type} (f : α → HState → Option HState) :
    List α → Option HState → Option HState
  | [], acc => acc
  | a :: l, acc =>
    hFold f l (match acc with | some st => f a st | none => none)

/-- From `part_007` (`buildDependencyGraph`), heap-level: the
already-present branch mutates the node object in place through the graph
reference (`graph[id].isDirectDependency = true`, guarded by its current
value); the insert branch takes the object from `getPackageInfo` (shared
with the LRU cache), assigns `isDirectDependency = directDependency` in
place, stores the same reference in the graph, and recurses into the
object's dependency identifiers. -/
def buildDependencyGraphH (reg : Registry) :
    Nat → Str → Str → Bool → HState → Option HState
  | 0, _, _, _, _ => none
  | fuel+1, packageName, exactVersion, directDependency, s =>
    let packageIdentifier := mkId packageName exactVersion
    match alookup s.graph packageIdentifier with
    | some r =>
      match s.heap[r]? with
      | none => some s
      | some o =>
        some (if o.isDirectDependency
          then { s with heap := s.heap.set r { o with isDirectDependency := true } }
          else s)
    | none =>
      match getPackageInfoH reg packageName exactVersion s with
      | none => none
      | some (r, s1) =>
        match s1.heap[r]? with
        | none => none
        | some o =>
          let s2 := { s1 with
            heap := s1.heap.set r { o with isDirectDependency := directDependency } }
          let s3 := { s2 with graph := s2.graph ++ [(packageIdentifier, r)] }
          hFold
            (fun depIdentifier st => buildDependencyGraphH reg fuel
              (parsePackageIdentifier depIdentifier).1
              (parsePackageIdentifier depIdentifier).2 false st)
            o.dependencies (some s3)

/-- Registry with the single dependency-free package `A@1`. -/
def regSolo : Registry := fun n v =>
  if n = str "A" ∧ v = str "1" then
    some ⟨str "1", str "urlA", str "hashA", false, []⟩
  else none

/-- C10 counterexample: build `A@1` first with `direct = false`, then again
with `direct = true`. The second (most recent) build call takes the
already-present branch, whose guard `if (graph[id].isDirectDependency)`
is false, so nothing is written: the shared cached object still has
`isDirectDependency = false`, not the most recent call's `true`. -/
theorem buildH_cache_hit_not_most_recent_call :
    buildDependencyGraphH regSolo 5 (str "A") (str "1") false ⟨[], [], []⟩ =
      some ⟨[⟨str "1", str "urlA", str "hashA", false, []⟩],
        [(str "A@1", 0)], [(str "A@1", 0)]⟩ ∧
    buildDependencyGraphH regSolo 5 (str "A") (str "1") true
        ⟨[⟨str "1", str "urlA", str "hashA", false, []⟩],
          [(str "A@1", 0)], [(str "A@1", 0)]⟩ =
      some ⟨[⟨str "1", str "urlA", str "hashA", false, []⟩],
        [(str "A@1", 0)], [(str "A@1", 0)]⟩ ∧
    ((⟨[⟨str "1", str "urlA", str "hashA", false, []⟩],
        [(str "A@1", 0)], [(str "A@1", 0)]⟩ : HState).heap[0]?).map
      PackageInfo.isDirectDependency = some false := by
  exact ⟨by decide, by decide, by decide⟩

/-! Heap-indexing lemmas for the C10 development. -/

theorem hget_some_lt {α : Type} :
    ∀ (l : List α) (r : Nat) (o : α), l[r]? = some o → r < l.length := by
  intro l
  induction l with
  | nil => intro r o h; simp at h
  | cons x t ih =>
    intro r o h
    cases r with
    | zero => simp
    | succ r =>
      simp only [List.getElem?_cons_succ] at h
      exact Nat.succ_lt_succ (ih r o h)

theorem hget_set_self {α : Type} :
    ∀ (l : List α) (r : Nat) (x : α), r < l.length → (l.set r x)[r]? = some x := by
  intro l
  induction l with
  | nil => intro r x h; cases h
  | cons y t ih =>
    intro r x h
    cases r with
    | zero => simp [List.set]
    | succ r =>
      simp only [List.set, List.getElem?_cons_succ]
      exact ih r x (Nat.lt_of_succ_lt_succ h)

theorem hget_set_other {α : Type} :
    ∀ (l : List α) (r r' : Nat) (x : α), r ≠ r' → (l.set r x)[r']? = l[r']? := by
  intro l
  induction l with
  | nil => intro r r' x _; cases r <;> rfl
  | cons y t ih =>
    intro r r' x hne
    cases r with
    | zero =>
      cases r' with
      | zero => exact absurd rfl hne
      | succ r' => simp [List.set]
    | succ r =>
      cases r' with
      | zero => simp [List.set]
      | succ r' =>
        simp only [List.set, List.getElem?_cons_succ]
        exact ih r r' x (fun hh => hne (by rw [hh]))

theorem hget_append_left {α : Type} :
    ∀ (l l2 : List α) (r : Nat), r < l.length → (l ++ l2)[r]? = l[r]? := by
  intro l
  induction l with
  | nil => intro l2 r h; cases h
  | cons y t ih =>
    intro l2 r h
    cases r with
    | zero => simp
    | succ r =>
      simp only [List.cons_append, List.getElem?_cons_succ]
      exact ih l2 r (Nat.lt_of_succ_lt_succ h)

theorem hget_append_self {α : Type} :
    ∀ (l : List α) (x : α), (l ++ [x])[l.length]? = some x := by
  intro l
  induction l with
  | nil => intro x; rfl
  | cons y t ih =>
    intro x
    simp only [List.cons_append, List.length_cons, List.getElem?_cons_succ]
    exact ih x

theorem alookup_mem {α : Type} :
    ∀ (l : List (Str × α)) (k : Str) (v : α),
      alookup l k = some v → (k, v) ∈ l := by
  intro l
  induction l with
  | nil => intro k v h; cases h
  | cons p ps ih =>
    intro k v h
    by_cases hp : p.1 = k
    · simp only [alookup, if_pos hp] at h
      injection h with h
      have hkv : (k, v) = p := by rw [← hp, ← h]
      rw [hkv]
      exact List.mem_cons_self p ps
    · simp only [alookup, if_neg hp] at h
      exact List.mem_cons_of_mem p (ih k v h)

theorem alookup_none_not_mem {α : Type} :
    ∀ (l : List (Str × α)) (k : Str) (v : α),
      alookup l k = none → (k, v) ∉ l := by
  intro l
  induction l with
  | nil => intro k v _ hm; exact absurd hm (List.not_mem_nil _)
  | cons p ps ih =>
    intro k v h hm
    by_cases hp : p.1 = k
    · simp only [alookup, if_pos hp] at h
      exact Option.noConfusion h
    · simp only [alookup, if_neg hp] at h
      rcases List.mem_cons.mp hm with rfl | hm'
      · exact hp rfl
      · exact ih k v h hm'

theorem alookup_append_cons {α : Type} (l1 : List (Str × α)) (k : Str) (v : α)
    (t : List (Str × α)) (h : alookup l1 k = none) :
    alookup (l1 ++ (k, v) :: t) k = some v := by
  rw [alookup_append_none _ h]
  simp [alookup]

theorem nodup_snd_mem_eq :
    ∀ (l : List (Str × Nat)), (l.map Prod.snd).Nodup →
      ∀ (a b : Str × Nat), a ∈ l → b ∈ l → a.2 = b.2 → a = b := by
  intro l
  induction l with
  | nil => intro _ a b ha; exact absurd ha (List.not_mem_nil a)
  | cons p t ih =>
    intro hnd a b ha hb hsnd
    simp only [List.map, List.nodup_cons] at hnd
    rcases List.mem_cons.mp ha with rfl | ha' <;>
      rcases List.mem_cons.mp hb with h2 | hb'
    · rw [h2]
    · exact absurd (hsnd ▸ List.mem_map_of_mem Prod.snd hb') hnd.1
    · rw [h2] at hsnd ⊢
      exact absurd (hsnd ▸ List.mem_map_of_mem Prod.snd ha') hnd.1
    · exact ih hnd.2 a b ha' hb' hsnd

theorem packageInfo_set_true_self (o : PackageInfo)
    (h : o.isDirectDependency = true) :
    { o with isDirectDependency := true } = o := by
  cases o with
  | mk a b c d e =>
    simp only [PackageInfo.isDirectDependency] at h
    rw [← h]

theorem hset_get_self {α : Type} :
    ∀ (l : List α) (r : Nat) (o : α), l[r]? = some o → l.set r o = l := by
  intro l
  induction l with
  | nil => intro r o h; simp at h
  | cons x t ih =>
    intro r o h
    cases r with
    | zero =>
      simp only [List.getElem?_cons_zero] at h
      injection h with h
      rw [List.set, h]
    | succ r =>
      simp only [List.getElem?_cons_succ] at h
      rw [List.set, ih r o h]

/-- Well-formedness of a heap-level state: every graph entry stores the very
reference recorded for that identifier in `packageInfoCache` (the aliasing
invariant), every cached reference points into the heap, and distinct cache
entries hold distinct references. -/
def WfH (s : HState) : Prop :=
  (∀ p ∈ s.graph, alookup s.infoCache p.1 = some p.2) ∧
  (∀ p ∈ s.infoCache, p.2 < s.heap.length) ∧
  (s.infoCache.map Prod.snd).Nodup

instance (s : HState) : Decidable (WfH s) := by
  unfold WfH
  infer_instance

/-- One heap-level build step only appends to the graph and to the cache,
only grows the heap, and never overwrites a heap cell already referenced by
the graph. -/
def HExtends (s s' : HState) : Prop :=
  (∃ g2, s'.graph = s.graph ++ g2) ∧
  (∃ c2, s'.infoCache = s.infoCache ++ c2) ∧
  s.heap.length ≤ s'.heap.length ∧
  (∀ p ∈ s.graph, s'.heap[p.2]? = s.heap[p.2]?)

theorem hExtends_refl (s : HState) : HExtends s s :=
  ⟨⟨[], (List.append_nil _).symm⟩, ⟨[], (List.append_nil _).symm⟩,
    Nat.le_refl _, fun _ _ => rfl⟩

theorem hExtends_trans {a b c : HState} (h1 : HExtends a b)
    (h2 : HExtends b c) : HExtends a c := by
  obtain ⟨⟨g2, hg2⟩, ⟨c2, hc2⟩, hlen, hheap⟩ := h1
  obtain ⟨⟨g3, hg3⟩, ⟨c3, hc3⟩, hlen', hheap'⟩ := h2
  refine ⟨⟨g2 ++ g3, by rw [hg3, hg2, List.append_assoc]⟩,
    ⟨c2 ++ c3, by rw [hc3, hc2, List.append_assoc]⟩,
    Nat.le_trans hlen hlen', ?_⟩
  intro p hp
  have hpb : p ∈ b.graph := by
    rw [hg2]; exact List.mem_append_left g2 hp
  rw [hheap' p hpb, hheap p hp]

theorem hFold_none {α : Type} (f : α → HState → Option HState) :
    ∀ (l : List α), hFold f l none = none := by
  intro l
  induction l with
  | nil => rfl
  | cons a t ih => simp only [hFold]; exact ih

theorem hFold_inv {α : Type} (f : α → HState → Option HState)
    (Q : HState → Prop) (R : HState → HState → Prop)
    (hrefl : ∀ s, R s s)
    (htrans : ∀ {a b c}, R a b → R b c → R a c)
    (hstep : ∀ a st st', Q st → f a st = some st' → Q st' ∧ R st st') :
    ∀ (l : List α) (st0 st' : HState), Q st0 →
      hFold f l (some st0) = some st' → Q st' ∧ R st0 st' := by
  intro l
  induction l with
  | nil =>
    intro st0 st' hq h
    simp only [hFold] at h
    injection h with h
    subst h
    exact ⟨hq, hrefl st0⟩
  | cons a t ih =>
    intro st0 st' hq h
    simp only [hFold] at h
    cases hfa : f a st0 with
    | none =>
      rw [hfa, hFold_none] at h
      exact absurd h (fun hh => Option.noConfusion hh)
    | some st1 =>
      rw [hfa] at h
      obtain ⟨hq1, hr1⟩ := hstep a st0 st1 hq hfa
      obtain ⟨hq', hr'⟩ := ih st1 st' hq1 h
      exact ⟨hq', htrans hr1 hr'⟩

/-- Cache-layer specification of `getPackageInfo` at the heap level: on
success the graph is untouched, the returned reference is recorded in the
cache for the requested identifier, cache and heap only grow, and
well-formedness is preserved. -/
theorem getPackageInfoH_spec (reg : Registry) (n v : Str) (s : HState)
    (r : Nat) (s1 : HState) (hwf : WfH s)
    (h : getPackageInfoH reg n v s = some (r, s1)) :
    s1.graph = s.graph ∧
    alookup s1.infoCache (mkId n v) = some r ∧
    (∃ c2, s1.infoCache = s.infoCache ++ c2) ∧
    (∃ h2, s1.heap = s.heap ++ h2) ∧
    WfH s1 := by
  simp only [getPackageInfoH] at h
  cases hc : alookup s.infoCache (mkId n v) with
  | some r0 =>
    rw [hc] at h
    injection h with h
    injection h with h1 h2
    subst h1
    subst h2
    exact ⟨rfl, hc, ⟨[], (List.append_nil _).symm⟩,
      ⟨[], (List.append_nil _).symm⟩, hwf⟩
  | none =>
    rw [hc] at h
    cases hr : reg n v with
    | none =>
      rw [hr] at h
      exact absurd h (fun hh => Option.noConfusion hh)
    | some packageInfo =>
      rw [hr] at h
      injection h with h
      injection h with h1 h2
      subst h1
      subst h2
      have hnotin : s.heap.length ∉ s.infoCache.map Prod.snd := by
        intro hmem
        rcases List.mem_map.mp hmem with ⟨p, hp, hp2⟩
        exact absurd (hp2 ▸ hwf.2.1 p hp) (Nat.lt_irrefl _)
      refine ⟨rfl, alookup_append_cons _ _ _ _ hc,
        ⟨[(mkId n v, s.heap.length)], rfl⟩, ⟨[packageInfo], rfl⟩,
        ?_, ?_, ?_⟩
      · intro p hp
        exact alookup_append_some _ (hwf.1 p hp)
      · intro p hp
        have hlen : (s.heap ++ [packageInfo]).length = s.heap.length + 1 := by
          simp
        rw [hlen]
        rcases List.mem_append.mp hp with hp' | hp'
        · exact Nat.lt_succ_of_lt (hwf.2.1 p hp')
        · rw [List.mem_singleton.mp hp']
          exact Nat.lt_succ_self _
      · rw [List.map_append]
        refine List.Nodup.append hwf.2.2 (List.nodup_singleton _) ?_
        intro a ha hb
        simp only [List.map_cons, List.map_nil, List.mem_singleton] at hb
        exact hnotin (hb ▸ ha)

/-- Re-reaching an identifier already present in the graph is a no-op on
the whole state: the already-present branch either writes nothing (guard
false) or rewrites the node's current value into its own heap cell. -/
theorem buildH_revisit (reg : Registry) (fuel : Nat) (n v : Str) (d : Bool)
    (s : HState) (r : Nat) (hg : alookup s.graph (mkId n v) = some r) :
    buildDependencyGraphH reg (fuel+1) n v d s = some s := by
  simp only [buildDependencyGraphH]
  rw [hg]
  simp only []
  cases hh : s.heap[r]? with
  | none => rfl
  | some o =>
    simp only []
    cases ho : o.isDirectDependency with
    | false => rfl
    | true =>
      rw [if_pos rfl, packageInfo_set_true_self o ho, hset_get_self _ _ _ hh]

/-- C10 helper, master induction: from a well-formed state, a successful
heap-level build preserves well-formedness (hence graph/cache aliasing),
only extends the state, and — when the requested identifier was not yet in
the graph — leaves graph and cache sharing one reference for it whose heap
object carries the call's `direct` argument as its flag. -/
theorem buildH_extends (reg : Registry) :
    ∀ (fuel : Nat) (n v : Str) (d : Bool) (s s' : HState),
      WfH s →
      buildDependencyGraphH reg fuel n v d s = some s' →
      WfH s' ∧ HExtends s s' ∧
      (alookup s.graph (mkId n v) = none →
        ∃ r, alookup s'.graph (mkId n v) = some r ∧
          alookup s'.infoCache (mkId n v) = some r ∧
          (s'.heap[r]?).map PackageInfo.isDirectDependency = some d) := by
  intro fuel
  induction fuel with
  | zero =>
    intro n v d s s' _ h
    exact absurd h (fun hh => Option.noConfusion hh)
  | succ fuel ih =>
    intro n v d s s' hwf h
    cases hg : alookup s.graph (mkId n v) with
    | some r =>
      have hrev := buildH_revisit reg fuel n v d s r hg
      rw [h] at hrev
      injection hrev with hrev
      subst hrev
      refine ⟨hwf, hExtends_refl _, fun hnone => ?_⟩
      simp [hnone] at hg
      exact Option.noConfusion hnone
    | none =>
      simp only [buildDependencyGraphH] at h
      rw [hg] at h
      cases hgi : getPackageInfoH reg n v s with
      | none =>
        rw [hgi] at h
        exact absurd h (fun hh => Option.noConfusion hh)
      | some rs1 =>
        obtain ⟨r, s1⟩ := rs1
        rw [hgi] at h
        simp only [] at h
        obtain ⟨hgr1, hc1, ⟨c2, hc2⟩, ⟨h2, hh2⟩, hwf1⟩ :=
          getPackageInfoH_spec reg n v s r s1 hwf hgi
        cases hh1 : s1.heap[r]? with
        | none =>
          rw [hh1] at h
          exact absurd h (fun hh => Option.noConfusion hh)
        | some o =>
          rw [hh1] at h
          simp only [] at h
          have hr1 : r < s1.heap.length := hget_some_lt _ _ _ hh1
          have hfold : hFold (fun depIdentifier st => buildDependencyGraphH reg
                fuel (parsePackageIdentifier depIdentifier).1
                (parsePackageIdentifier depIdentifier).2 false st)
              o.dependencies
              (some ⟨s1.heap.set r { o with isDirectDependency := d },
                s1.infoCache, s1.graph ++ [(mkId n v, r)]⟩) = some s' := h
          have hwf3 : WfH ⟨s1.heap.set r { o with isDirectDependency := d },
              s1.infoCache, s1.graph ++ [(mkId n v, r)]⟩ := by
            refine ⟨?_, ?_, hwf1.2.2⟩
            · intro p hp
              rcases List.mem_append.mp hp with hp' | hp'
              · exact hwf1.1 p hp'
              · rw [List.mem_singleton.mp hp']
                exact hc1
            · intro p hp
              rw [List.length_set]
              exact hwf1.2.1 p hp
          have hext3 : HExtends s ⟨s1.heap.set r
              { o with isDirectDependency := d },
              s1.infoCache, s1.graph ++ [(mkId n v, r)]⟩ := by
            refine ⟨⟨[(mkId n v, r)], by rw [hgr1]⟩, ⟨c2, hc2⟩, ?_, ?_⟩
            · show s.heap.length ≤ (s1.heap.set r _).length
              rw [List.length_set, hh2, List.length_append]
              exact Nat.le_add_right _ _
            · intro p hp
              have hplt : p.2 < s.heap.length :=
                hwf.2.1 (p.1, p.2) (alookup_mem _ _ _ (hwf.1 p hp))
              have hps1 : s1.heap[p.2]? = s.heap[p.2]? := by
                rw [hh2]
                exact hget_append_left _ _ _ hplt
              have hrne : r ≠ p.2 := by
                intro hre
                have hmem1 : (mkId n v, r) ∈ s1.infoCache :=
                  alookup_mem _ _ _ hc1
                have hmem2 : (p.1, p.2) ∈ s1.infoCache :=
                  alookup_mem _ _ _ (hwf1.1 p (hgr1 ▸ hp))
                have heq := nodup_snd_mem_eq s1.infoCache hwf1.2.2
                  (mkId n v, r) (p.1, p.2) hmem1 hmem2 hre
                have hid : mkId n v = p.1 :=
                  congrArg Prod.fst heq
                have hnm := alookup_none_not_mem s.graph (mkId n v) p.2 hg
                exact hnm (by rw [hid]; exact hp)
              show (s1.heap.set r _)[p.2]? = s.heap[p.2]?
              rw [hget_set_other _ _ _ _ hrne, hps1]
          obtain ⟨hwf', hext'⟩ := hFold_inv _ WfH HExtends hExtends_refl
            (fun ha hb => hExtends_trans ha hb)
            (fun a st st' hq hf =>
              ⟨(ih _ _ _ st st' hq hf).1, (ih _ _ _ st st' hq hf).2.1⟩)
            o.dependencies _ s' hwf3 hfold
          refine ⟨hwf', hExtends_trans hext3 hext', ?_⟩
          intro _
          obtain ⟨⟨g2', hg2'⟩, ⟨c2', hc2'⟩, _, hheap'⟩ := hext'
          refine ⟨r, ?_, ?_, ?_⟩
          · rw [hg2']
            refine alookup_append_some _ ?_
            exact alookup_append_cons _ _ _ _ (by rw [hgr1]; exact hg)
          · rw [hc2']
            exact alookup_append_some _ hc1
          · have hmem : (mkId n v, r) ∈
                (⟨s1.heap.set r { o with isDirectDependency := d },
                  s1.infoCache, s1.graph ++ [(mkId n v, r)]⟩ : HState).graph :=
              List.mem_append_right _ (List.mem_singleton.mpr rfl)
            rw [hheap' (mkId n v, r) hmem]
            show ((s1.heap.set r { o with isDirectDependency := d })[r]?).map
              PackageInfo.isDirectDependency = some d
            rw [hget_set_self _ _ _ hr1]
            rfl

/-- C10 (amended): the object inserted into the dependency graph is the very
object stored in the `packageInfoCache` LRU — graph and cache hold one
shared reference for each identifier — and `buildDependencyGraph` assigns
the shared object's `isDirectDependency` in place when it inserts the node,
so a later cache hit sees the flag of the build call that inserted the node
(the fetched default `false` is overwritten); but a repeat build call for an
identifier already in the graph changes nothing (the guarded in-place write
in the already-present branch is a no-op), so the flag reflects the
inserting call, not the most recent one. -/
theorem buildH_graph_aliases_cache (reg : Registry) (fuel : Nat) (n v : Str)
    (d : Bool) (s s' : HState) (hwf : WfH s)
    (hb : buildDependencyGraphH reg fuel n v d s = some s') :
    (∀ id r, alookup s'.graph id = some r → alookup s'.infoCache id = some r) ∧
    (alookup s.graph (mkId n v) = none →
      ∃ r, alookup s'.graph (mkId n v) = some r ∧
        alookup s'.infoCache (mkId n v) = some r ∧
        (s'.heap[r]?).map PackageInfo.isDirectDependency = some d) ∧
    (∀ r, alookup s.graph (mkId n v) = some r → s' = s) := by
  obtain ⟨hwf', _, hfresh⟩ := buildH_extends reg fuel n v d s s' hwf hb
  refine ⟨?_, hfresh, ?_⟩
  · intro id r hgr
    exact hwf'.1 (id, r) (alookup_mem _ _ _ hgr)
  · intro r hgr
    cases fuel with
    | zero => exact absurd hb (fun hh => Option.noConfusion hh)
    | succ fuel =>
      have hrev := buildH_revisit reg fuel n v d s r hgr
      rw [hb] at hrev
      injection hrev with hrev

theorem buildH_graph_aliases_cache_witness :
    WfH ⟨[], [], []⟩ ∧
    ((∀ id r, alookup (⟨[⟨str "1", str "urlA", str "hashA", true, []⟩],
          [(str "A@1", 0)], [(str "A@1", 0)]⟩ : HState).graph id = some r →
        alookup (⟨[⟨str "1", str "urlA", str "hashA", true, []⟩],
          [(str "A@1", 0)], [(str "A@1", 0)]⟩ : HState).infoCache id = some r) ∧
      (alookup (⟨[], [], []⟩ : HState).graph (mkId (str "A") (str "1")) =
          none →
        ∃ r, alookup (⟨[⟨str "1", str "urlA", str "hashA", true, []⟩],
            [(str "A@1", 0)], [(str "A@1", 0)]⟩ : HState).graph
            (mkId (str "A") (str "1")) = some r ∧
          alookup (⟨[⟨str "1", str "urlA", str "hashA", true, []⟩],
            [(str "A@1", 0)], [(str "A@1", 0)]⟩ : HState).infoCache
            (mkId (str "A") (str "1")) = some r ∧
          ((⟨[⟨str "1", str "urlA", str "hashA", true, []⟩],
            [(str "A@1", 0)], [(str "A@1", 0)]⟩ : HState).heap[r]?).map
            PackageInfo.isDirectDependency = some true) ∧
      (∀ r, alookup (⟨[], [], []⟩ : HState).graph (mkId (str "A") (str "1")) =
          some r →
        (⟨[⟨str "1", str "urlA", str "hashA", true, []⟩],
          [(str "A@1", 0)], [(str "A@1", 0)]⟩ : HState) = ⟨[], [], []⟩)) :=
  ⟨by decide,
   buildH_graph_aliases_cache regSolo 5 (str "A") (str "1") true
     ⟨[], [], []⟩
     ⟨[⟨str "1", str "urlA", str "hashA", true, []⟩],
       [(str "A@1", 0)], [(str "A@1", 0)]⟩
     (by decide) (by decide)⟩
